import Mathlib

/-!
Verification development for the incremental rendering reconciliation engine
in `src/rendering/rendering.ts` (typewriter).

The TypeScript source is shallowly embedded: JavaScript object identity is
modelled by giving each heap object (a `Line`, a combined `Line[]` group, a
`{combined, byKey}` result) an explicit `ref : Nat` nonce, so Lean equality of
the model values coincides with JavaScript `===` on any real (immutable) heap.
The module-level `WeakMap` caches (`linesMultiples`, `linesCombined`) are
modelled as an explicit `CombineState` threaded through `combineLines`.
External collaborators (the `@typewriter/document` model, the vdom patch
primitive, the typeset registry, decorations) are not part of the reviewed
source; they are modelled as opaque function fields of `Editor` and
`TextDocument`, or - where the spec constrains them - modelled from the spec
(each such definition is marked in its doc comment).
-/

set_option autoImplicit false

namespace Typewriter

/-- A JSON-like scalar attribute value (value of a line/format attribute and
of a vdom prop). `lodash.isEqual` on these scalars is plain equality. -/
inductive AttrValue where
  | null
  | bool (b : Bool)
  | num (n : Int)
  | str (s : String)
  deriving DecidableEq

/-- A JavaScript attribute object: keys in insertion order with their values. -/
abbrev AttributeMap := List (String × AttrValue)

/-- JavaScript property lookup `m[k]` (object keys are unique, first match). -/
def lookupA (m : AttributeMap) (k : String) : Option AttrValue :=
  (m.find? (fun p => decide (p.1 = k))).map (·.2)

/-- Generic association-list lookup, used to model `WeakMap.get`
(`.set` conses a new binding at the front, so the first match wins,
giving overwrite semantics). -/
def wmGet {κ ν : Type} [DecidableEq κ] (m : List (κ × ν)) (k : κ) : Option ν :=
  (m.find? (fun p => decide (p.1 = k))).map (·.2)

/-- Lookup in a JavaScript record built by successive `byKey[k] = v`
assignments appended in order: the last assignment wins. -/
def recGet {ν : Type} (m : List (String × ν)) (k : String) : Option ν :=
  (m.reverse.find? (fun p => decide (p.1 = k))).map (·.2)

/-- One insert operation of a line's content `Delta`: a text fragment or an
embedded-object descriptor. -/
inductive Insert where
  | text (s : String)
  | embed (e : AttributeMap)
  deriving DecidableEq

/-- A delta operation: an insert, optionally annotated with formatting
attributes (`op.attributes` is absent or an object). -/
structure Op where
  insert : Insert
  attributes : Option AttributeMap
  deriving DecidableEq

abbrev Delta := List Op

/-- A document `Line` object. `ref` is the object nonce modelling JavaScript
identity: `l = l\x27` in the model corresponds to `l === l\x27` in the source. -/
structure Line where
  ref : Nat
  id : String
  attrs : AttributeMap
  content : Delta
  deriving DecidableEq

instance : Inhabited Line := ⟨⟨0, "", [], []⟩⟩

/-- A combined `Line[]` array object (a group), with its array-object nonce. -/
structure LineGroup where
  ref : Nat
  lines : List Line
  deriving DecidableEq

/-- `CombinedEntry`: either a single `Line` or a combined `Line[]` group. -/
inductive CEntry where
  | line (l : Line)
  | group (g : LineGroup)
  deriving DecidableEq

/-- A combined entry with the group's array identity erased: the pure value
content of a `CombinedEntry`, which is all that rendering depends on. -/
inductive PEntry where
  | line (l : Line)
  | group (ls : List Line)
  deriving DecidableEq

def stripE : CEntry → PEntry
  | .line l => .line l
  | .group g => .group g.lines

/-- The member `Line`s of a list of entries, in order. -/
def flattenE (es : List CEntry) : List Line :=
  es.flatMap fun e => match e with
    | .line l => [l]
    | .group g => g.lines

/-- The member `Line`s of a list of pure entries, in order. -/
def flattenP (es : List PEntry) : List Line :=
  es.flatMap fun e => match e with
    | .line l => [l]
    | .group ls => ls

/-- A virtual-dom node (`h(type, props, children)`), or a plain text child.
`key` models the `key` property the renderer assigns to line nodes. -/
inductive VChild where
  | text (s : String)
  | node (tag : String) (props : AttributeMap) (key : Option String)
         (children : List VChild)

mutual

def VChild.decEq : (a b : VChild) → Decidable (a = b)
  | .text s, .text t =>
    if h : s = t then .isTrue (by rw [h])
    else .isFalse (by intro he; cases he; exact h rfl)
  | .text _, .node _ _ _ _ => .isFalse (by intro he; cases he)
  | .node _ _ _ _, .text _ => .isFalse (by intro he; cases he)
  | .node t p k cs, .node t2 p2 k2 cs2 =>
    if h1 : t = t2 then
      if h2 : p = p2 then
        if h3 : k = k2 then
          match VChild.decEqList cs cs2 with
          | .isTrue h4 => .isTrue (by rw [h1, h2, h3, h4])
          | .isFalse h => .isFalse (by intro he; cases he; exact h rfl)
        else .isFalse (by intro he; cases he; exact h3 rfl)
      else .isFalse (by intro he; cases he; exact h2 rfl)
    else .isFalse (by intro he; cases he; exact h1 rfl)

def VChild.decEqList : (a b : List VChild) → Decidable (a = b)
  | [], [] => .isTrue rfl
  | [], _ :: _ => .isFalse (by intro he; cases he)
  | _ :: _, [] => .isFalse (by intro he; cases he)
  | x :: xs, y :: ys =>
    match VChild.decEq x y, VChild.decEqList xs ys with
    | .isTrue h1, .isTrue h2 => .isTrue (by rw [h1, h2])
    | .isFalse h, _ => .isFalse (by intro he; cases he; exact h rfl)
    | _, .isFalse h => .isFalse (by intro he; cases he; exact h rfl)

end

instance : DecidableEq VChild := VChild.decEq

/-- `const BR = h('br', \x7b\x7d)`. -/
def BR : VChild := .node "br" [] none []

/-- `node.key = id` (a no-op on a text node, which has no `key` property). -/
def setKey (c : VChild) (k : String) : VChild :=
  match c with
  | .text s => .text s
  | .node t p _ cs => .node t p (some k) cs

/-- The `key` property of an on-screen node; text nodes have none. -/
def childKey : VChild → Option String
  | .text _ => none
  | .node _ _ k _ => k

/-- A truthy `key` (JavaScript `if (!child.key) continue` also skips the
empty string). -/
def truthyKey (c : VChild) : Option String :=
  (childKey c).filter (fun k => decide (k ≠ ""))

/-- A line type from the typeset registry. All render capabilities are
optional, mirroring the duck-typed registry objects. -/
structure LineType where
  render : Option (AttributeMap → List VChild → VChild)
  renderMultiple : Option (List (AttributeMap × List VChild × String) → VChild)
  shouldCombine : Option (AttributeMap → AttributeMap → Bool)

/-- An inline format type from the typeset registry. Its `render` may return
`none` (a falsy node), in which case the children propagate upward. -/
structure FormatType where
  name : String
  render : Option (AttributeMap → List VChild → Option VChild)

/-- An embed type from the typeset registry. -/
structure EmbedType where
  name : String
  noFill : Bool
  render : Option (AttributeMap → List VChild → VChild)

/-- The editor with its typeset registry, modelled as opaque lookup
functions (the registry is an external collaborator of the reviewed
source). Line/format type objects live in the `lineTypes`/`formatTypes`
tables and are compared by table index, which models JavaScript object
identity of registry entries (`getLineType(editor, next) !== type`).
`selMatch` models matching against `editor.typeset.lines.selector`, and
`applyDecorations` the external decorations module (an opaque
node-to-node function). -/
structure Editor where
  lineTypes : Nat → LineType
  linesFindIdx : AttributeMap → Nat
  formatTypes : Nat → FormatType
  formatsGetIdx : String → Option Nat
  priority : String → Int
  embedsFind : AttributeMap → Option EmbedType
  selMatch : String → AttributeMap → Bool
  applyDecorations : VChild → AttributeMap → VChild

/-- `getLineType` (rendering.ts:327-334). The `linesType` cache is keyed by
the attributes object and caches the deterministic registry lookup
`editor.typeset.lines.findByAttributes(line.attributes, true)`; it is
semantically transparent, so the model is the pure lookup. The result index
identifies the registry object. -/
def getLineTypeIdx (ed : Editor) (l : Line) : Nat :=
  ed.linesFindIdx l.attrs

def getLineType (ed : Editor) (l : Line) : LineType :=
  ed.lineTypes (getLineTypeIdx ed l)

/-- The memoized `\x7bcombined, byKey\x7d` result object of `combineLines`,
with its own object nonce `ref` (for reference-identity of the cached
result). `byKey` records the `byKey[k] = entry` assignments in order. -/
structure CombinedData where
  ref : Nat
  combined : List CEntry
  byKey : List (String × CEntry)
  deriving DecidableEq

/-- The module-level `WeakMap` caches of rendering.ts plus a fresh-nonce
allocator for newly created objects:
`multiples` models `linesMultiples : WeakMap<Line, Line[]>` and
`combinedMemo` models `linesCombined : WeakMap<Line[], CombinedData>`
(a `Line[]` array object is its nonce paired with its elements). -/
structure CombineState where
  multiples : List (Line × LineGroup)
  combinedMemo : List ((Nat × List Line) × CombinedData)
  fresh : Nat

def emptyState : CombineState := ⟨[], [], 0⟩

/-- The group-closing step of `combineLines` (rendering.ts:153-163):
`const last = linesMultiples.get(collect[0]); if (last && last.length ===
collect.length && collect.every((v, i) => last[i] === v)) collect = last;
else linesMultiples.set(collect[0], collect);`
The returned group is the (possibly reused) array object pushed into the
output. A freshly closed `collect` array gets a fresh nonce. -/
def closeCollect (st : CombineState) (collect : List Line) :
    LineGroup × CombineState :=
  match collect with
  | [] => (⟨st.fresh, []⟩, st) -- unreachable: collect has just been pushed to
  | c0 :: _ =>
    match wmGet st.multiples c0 with
    | some last =>
      if last.lines = collect then (last, st)
      else
        let g : LineGroup := ⟨st.fresh, collect⟩
        (g, { st with multiples := (c0, g) :: st.multiples, fresh := st.fresh + 1 })
    | none =>
      let g : LineGroup := ⟨st.fresh, collect⟩
      (g, { st with multiples := (c0, g) :: st.multiples, fresh := st.fresh + 1 })

/-- The closing condition of the combine chain (rendering.ts:153):
`!next || getLineType(editor, next) !== type ||
!type.shouldCombine(collect[0].attributes, next.attributes)`. -/
def closesAfter (ed : Editor) (tIdx : Nat) (sc : AttributeMap → AttributeMap → Bool)
    (first : Line) (rest : List Line) : Bool :=
  match rest.head? with
  | none => true
  | some next =>
    decide (getLineTypeIdx ed next ≠ tIdx) || !(sc first.attrs next.attrs)

/-- The `lines.forEach` body of `combineLines` (rendering.ts:147-169), with
the one-line lookahead `lines[i + 1]` expressed as the head of the rest.
Returns the pushed `combined` entries, the `byKey` assignments in order, and
the updated cache state. -/
def combineLoop (ed : Editor) :
    CombineState → List Line → List Line →
    List CEntry × List (String × CEntry) × CombineState
  | st, _, [] => ([], [], st)
  | st, collect, line :: rest =>
    let t := getLineType ed line
    match t.shouldCombine with
    | some sc =>
      let collect' := collect ++ [line]
      let first := collect.headD line
      if closesAfter ed (getLineTypeIdx ed line) sc first rest then
        let gst := closeCollect st collect'
        let out := combineLoop ed gst.2 [] rest
        (CEntry.group gst.1 :: out.1, (first.id, CEntry.group gst.1) :: out.2.1, out.2.2)
      else
        combineLoop ed st collect' rest
    | none =>
      if t.render.isSome then
        let out := combineLoop ed st collect rest
        (CEntry.line line :: out.1, (line.id, CEntry.line line) :: out.2.1, out.2.2)
      else
        combineLoop ed st collect rest

/-- `combineLines` (rendering.ts:139-174): whole-result memoization keyed by
the identity of the `Line[]` array (`laRef` is the array-object nonce of
`lines`), then the grouping loop; the fresh `\x7bcombined, byKey\x7d` object
gets a fresh nonce and is recorded in the cache. -/
def combineLines (ed : Editor) (st : CombineState) (laRef : Nat)
    (lines : List Line) : CombinedData × CombineState :=
  match wmGet st.combinedMemo (laRef, lines) with
  | some cache => (cache, st)
  | none =>
    let out := combineLoop ed st [] lines
    let data : CombinedData := ⟨out.2.2.fresh, out.1, out.2.1⟩
    (data,
      { out.2.2 with
        combinedMemo := ((laRef, lines), data) :: out.2.2.combinedMemo,
        fresh := out.2.2.fresh + 1 })

/-- `isSame` (rendering.ts:318-324): same object, or two arrays of the same
length whose members are pairwise the same object. -/
def isSame (a b : CEntry) : Bool :=
  match a, b with
  | .line x, .line y => decide (x = y)
  | .group x, .group y => decide (x.ref = y.ref) || decide (x.lines = y.lines)
  | _, _ => false

/-- The front scan of `getChangedRanges`: the first index below the common
length at which the entries are not `isSame`, if any (the loop runs for
`i < minLength` and breaks at the first mismatch). -/
def firstDiff : List CEntry → List CEntry → Option Nat
  | a :: as_, b :: bs => if isSame a b then (firstDiff as_ bs).map (· + 1) else some 0
  | _, _ => none

/-- `getChangedRanges` (rendering.ts:177-196). Both loops scan only the
common length; when a loop finds no mismatch the corresponding bounds keep
their initial value `0`. Returned as `((oldStart, oldEnd), (newStart,
newEnd))`, each window a half-open index range. -/
def getChangedRanges (oldC newC : List CEntry) :
    (Nat × Nat) × (Nat × Nat) :=
  let s := (firstDiff oldC newC).getD 0
  match firstDiff oldC.reverse newC.reverse with
  | some k => ((s, oldC.length - k), (s, newC.length - k))
  | none => ((s, 0), (s, 0))

/-! ## Inline composition (`renderInline`, rendering.ts:204-315) -/

/-- `lodash.isEqual` on two vdom prop objects: same keys (regardless of
order) with equal scalar values. -/
def propsEqual (a b : AttributeMap) : Bool :=
  (a.map Prod.fst ++ b.map Prod.fst).all fun k => lookupA a k == lookupA b k

/-- `addOrMergeChild` (rendering.ts:337-356): append a child, concatenating
adjacent text children and joining adjacent nodes of identical type and
equal props by concatenating their child lists. -/
def addOrMergeChild (list : List VChild) (c : VChild) : List VChild :=
  match list.getLast? with
  | some last =>
    match last, c with
    | .node t p k cs, .node t2 p2 _ cs2 =>
      if t = t2 ∧ propsEqual p p2 then
        list.dropLast ++ [.node t p k (cs ++ cs2)]
      else list ++ [c]
    | .text s, .text s2 => list.dropLast ++ [.text (s ++ s2)]
    | _, _ => list ++ [c]
  | none => list ++ [c]

/-- `combineChildren` (rendering.ts:359-369). `none` models an `undefined`
argument; a present empty array is `some []` (truthy in the source). -/
def combineChildren (a b : Option (List VChild)) : List VChild :=
  match a, b with
  | none, none => []
  | none, some bs => bs
  | some as_, none => as_
  | some as_, some bs => bs.foldl addOrMergeChild as_

/-- One open formatting frame of the inline stack (rendering.ts:198-202).
The format type object is identified by its registry index. -/
structure InlineStackItem where
  typeIdx : Nat
  attributes : AttributeMap
  content : Option (List VChild)

/-- The mutable locals of `renderInline`: the finished top-level children,
the active format stack (bottom of the stack first, matching the array),
and the `trailingBreak` flag. -/
structure InlineState where
  inlineChildren : List VChild
  activeStack : List InlineStackItem
  trailingBreak : Bool

/-- The `while` loop of `collapseStack` (rendering.ts:219-230), expressed as
recursion over the items above `from`, topmost first. Each iteration pops,
then breaks if the popped item has no render function; otherwise it combines
the frame content with the collapsed children and renders, a falsy render
result leaving the children in place. Returns the still-unpopped items
(topmost first) and the collapsed children. -/
def collapsePop (ed : Editor) :
    List InlineStackItem → Option (List VChild) →
    List InlineStackItem × Option (List VChild)
  | [], children => ([], children)
  | item :: rest, children =>
    match (ed.formatTypes item.typeIdx).render with
    | none => (rest, children)
    | some r =>
      let children' := combineChildren item.content children
      match r item.attributes children' with
      | some node => collapsePop ed rest (some [node])
      | none => collapsePop ed rest (some children')

/-- `collapseStack(from)` (rendering.ts:216-247): pop and render frames down
to depth `from`, then place the collapsed children: appended to the final
output when the stack emptied, otherwise pushed into the content of the new
top frame. -/
def collapseStack (ed : Editor) (s : InlineState) (fromIdx : Nat) : InlineState :=
  let keep := s.activeStack.take fromIdx
  let out := collapsePop ed (s.activeStack.drop fromIdx).reverse none
  let stack := keep ++ out.1.reverse
  match out.2 with
  | none => { s with activeStack := stack }
  | some cs =>
    if stack.length = 0 then
      { s with activeStack := stack, inlineChildren := s.inlineChildren ++ cs }
    else
      match stack.getLast? with
      | some last =>
        let last2 := { last with content := some (last.content.getD [] ++ cs) }
        { s with activeStack := stack.dropLast ++ [last2] }
      | none => { s with activeStack := stack }

/-- `insertStackItem(index, type, attributes)` (rendering.ts:250-264): keep a
matching frame open (same type object, `isEqual` attribute values under the
type name), otherwise collapse from that depth and push a fresh frame. -/
def insertStackItem (ed : Editor) (s : InlineState) (index : Nat) (tIdx : Nat)
    (attributes : AttributeMap) : InlineState :=
  match s.activeStack.get? index with
  | some active =>
    if active.typeIdx = tIdx ∧
        lookupA active.attributes (ed.formatTypes active.typeIdx).name
          = lookupA attributes (ed.formatTypes tIdx).name then
      s
    else
      let s2 := collapseStack ed s index
      { s2 with activeStack := s2.activeStack ++ [⟨tIdx, attributes, none⟩] }
  | none =>
    { s with activeStack := s.activeStack ++ [⟨tIdx, attributes, none⟩] }

/-- `startsWithSpace` (rendering.ts:371-373). -/
def startsWithSpace (op : Op) : Bool :=
  match op.insert with
  | .text s => s.toList.head? == some ' '
  | .embed _ => false

/-- `typeof op.insert === 'object'`. -/
def isObjectInsert (op : Op) : Bool :=
  match op.insert with
  | .embed _ => true
  | .text _ => false

/-- Global, non-overlapping, left-to-right `replace(/  /g, '\xA0 ')`. -/
def replDoubleA : List Char → List Char
  | ' ' :: ' ' :: rest => '\xA0' :: ' ' :: replDoubleA rest
  | c :: rest => c :: replDoubleA rest
  | [] => []

/-- Global, non-overlapping, left-to-right `replace(/  /g, ' \xA0')`. -/
def replDoubleB : List Char → List Char
  | ' ' :: ' ' :: rest => ' ' :: '\xA0' :: replDoubleB rest
  | c :: rest => c :: replDoubleB rest
  | [] => []

/-- `replace(/^ /, '\xA0')`. -/
def replLeading : List Char → List Char
  | ' ' :: rest => '\xA0' :: rest
  | cs => cs

/-- `replace(/ $/, '\xA0')`. -/
def replTrailing (cs : List Char) : List Char :=
  match cs.getLast? with
  | some ' ' => cs.dropLast ++ ['\xA0']
  | _ => cs

/-- The whitespace substitutions applied to a text insert
(rendering.ts:272-274), as a function of the neighbouring operations. -/
def transformText (prev next : Option Op) (s : String) : String :=
  let cs := replDoubleB (replDoubleA s.toList)
  let cs :=
    match prev with
    | none => replLeading cs
    | some p => if isObjectInsert p then replLeading cs else cs
  let cs :=
    match next with
    | none => replTrailing cs
    | some n => if isObjectInsert n || startsWithSpace n then replTrailing cs else cs
  String.mk cs

/-- A stable sort modelling `Array.prototype.sort` (stable per ES2019);
`le` is `comparator(a, b) <= 0`. -/
def jsStableInsert {α : Type} (le : α → α → Bool) (x : α) : List α → List α
  | [] => [x]
  | y :: ys => if le x y then x :: y :: ys else y :: jsStableInsert le x ys

def jsStableSort {α : Type} (le : α → α → Bool) : List α → List α
  | [] => []
  | x :: xs => jsStableInsert le x (jsStableSort le xs)

/-- One step of the `sortedKeys.forEach` (rendering.ts:291-297): resolve the
format type by name and, when it has a render function, insert it at the
current stack depth; a resolution miss or a renderless type is skipped and
does not advance the stack index. -/
def formatStep (ed : Editor) (attrs : AttributeMap) (acc : InlineState × Nat)
    (name : String) : InlineState × Nat :=
  match ed.formatsGetIdx name with
  | some ti =>
    if (ed.formatTypes ti).render.isSome then
      (insertStackItem ed acc.1 acc.2 ti attrs, acc.2 + 1)
    else acc
  | none => acc

/-- The body of `delta.ops.forEach` (rendering.ts:266-308) for one operation,
given its neighbours. -/
def processOp (ed : Editor) (s : InlineState) (prev : Option Op) (op : Op)
    (next : Option Op) : InlineState :=
  let cb : List VChild × Bool :=
    match op.insert with
    | .text str => ([.text (transformText prev next str)], false)
    | .embed eAttrs =>
      match ed.embedsFind eAttrs with
      | some embed =>
        match embed.render with
        | some r =>
          ([r eAttrs []],
           if embed.name = "br" then true
           else if !embed.noFill then false
           else s.trailingBreak)
        | none => ([], s.trailingBreak)
      | none => ([], s.trailingBreak)
  let children := cb.1
  let s := { s with trailingBreak := cb.2 }
  match op.attributes with
  | some attrs =>
    let sortedKeys :=
      jsStableSort (fun a b => decide (ed.priority a ≤ ed.priority b))
        (attrs.map Prod.fst)
    let s := (sortedKeys.foldl (formatStep ed attrs) (s, 0)).1
    match s.activeStack.getLast? with
    | some last =>
      let last2 := { last with content := some (combineChildren last.content (some children)) }
      { s with activeStack := s.activeStack.dropLast ++ [last2] }
    | none => s
  | none =>
    let s := collapseStack ed s 0
    { s with inlineChildren := combineChildren (some s.inlineChildren) (some children) }

/-- The `forEach` over all operations, carrying the previous operation. -/
def inlineOps (ed : Editor) : Option Op → List Op → InlineState → InlineState
  | _, [], s => s
  | prev, op :: rest, s => inlineOps ed (some op) rest (processOp ed s prev op rest.head?)

/-- `renderInline` (rendering.ts:204-315). -/
def renderInline (ed : Editor) (delta : Delta) : List VChild :=
  let s := inlineOps ed none delta ⟨[], [], true⟩
  let s := if s.activeStack.length > 0 then collapseStack ed s 0 else s
  if s.trailingBreak then s.inlineChildren ++ [BR] else s.inlineChildren

/-- The editor with the format registration for `n` removed (the typeset no
longer resolves that attribute name at all). Used to state that a
renderless format behaves exactly like an unregistered one. -/
def removeFormat (ed : Editor) (n : String) : Editor :=
  { ed with formatsGetIdx := fun m => if m = n then none else ed.formatsGetIdx m }

/-! ## Line rendering (rendering.ts:109-136) -/

/-- `renderSingleLine` (rendering.ts:121-128). A raised `Error` is modelled
as `Except.error` with the thrown message. -/
def renderSingleLine (ed : Editor) (line : Line) : Except String VChild :=
  let t := getLineType ed line
  match t.render with
  | none => .error "No render method defined for line"
  | some r =>
    let node := r line.attrs (renderInline ed line.content)
    let node := ed.applyDecorations node line.attrs
    .ok (setKey node line.id)

/-- `renderMultiLine` (rendering.ts:130-136). An empty group would make
`lines[0]` undefined and the property access throw; groups produced by
`combineLines` are never empty. -/
def renderMultiLine (ed : Editor) (lines : List Line) : Except String VChild :=
  match lines with
  | [] => .error "TypeError: lines[0] is undefined"
  | l0 :: _ =>
    let t := getLineType ed l0
    match t.renderMultiple with
    | none => .error "No render method defined for line"
    | some rm =>
      .ok (setKey (rm (lines.map fun l => (l.attrs, renderInline ed l.content, l.id))) l0.id)

/-- `renderLine` (rendering.ts:117-119): dispatch on `Array.isArray(line)`. -/
def renderLine (ed : Editor) : CEntry → Except String VChild
  | .line l => renderSingleLine ed l
  | .group g => renderMultiLine ed g.lines

/-- `renderLine` on a pure entry (the group's array identity is not used by
rendering). -/
def renderLineP (ed : Editor) : PEntry → Except String VChild
  | .line l => renderSingleLine ed l
  | .group ls => renderMultiLine ed ls

/-- `renderCombined` (rendering.ts:113-115). `renderLine` always yields a
node when it does not throw, so the `filter(Boolean)` removes nothing. -/
def renderCombined (ed : Editor) (es : List CEntry) : Except String (List VChild) :=
  es.mapM (renderLine ed)

/-- `renderCombined` at the pure-entry level. -/
def renderCombinedP (ed : Editor) (ps : List PEntry) : Except String (List VChild) :=
  ps.mapM (renderLineP ed)

/-! ## The document snapshot and the on-screen tree

Modelled from the spec: the `@typewriter/document` model is an external
collaborator ("consumed as an immutable, already-mutated snapshot"), so a
`TextDocument` is its ordered `Line` sequence (`linesRef` being the identity
nonce of the `doc.lines` array object) together with its opaque query
methods `getLineRange` (the `[start, end)` document-offset span of a line)
and `getLineBy` (line lookup by id).

The vdom patch primitive is likewise external; per the spec it "accepts an
old node/slice and a new abstract-node list and performs minimal
DOM-equivalent mutation", so after a patch the affected slice of the screen
equals the given node list. An on-screen node is therefore modelled by the
`VChild` that produced it, and node identity (for the `WeakMap` position
index and for `ranges.has`) by the node's path in the tree: the list of
child indexes from the root. -/

structure TextDocument where
  linesRef : Nat
  lines : List Line
  getLineRangeF : Line → Nat × Nat
  getLineByF : String → Option Line

abbrev Path := List Nat

abbrev RangeTable := List (Path × (Nat × Nat))

mutual

/-- The descendants of a node at path `p`, in document (depth-first
preorder) order, with their paths. -/
def descChild (p : Path) : VChild → List (Path × VChild)
  | .text _ => []
  | .node _ _ _ cs => descList p 0 cs

/-- The nodes of a child list (child `i` at path `p ++ [i]`) and all their
descendants, in document order. -/
def descList (p : Path) (i : Nat) : List VChild → List (Path × VChild)
  | [] => []
  | c :: rest => ((p ++ [i], c) :: descChild (p ++ [i]) c) ++ descList p (i + 1) rest

end

/-- `querySelectorAll(editor.typeset.lines.selector)` over an enumerated
node list: the elements matching the line selector, in document order. -/
def qsa (ed : Editor) (nodes : List (Path × VChild)) : List (Path × VChild) :=
  nodes.filter fun pc =>
    match pc.2 with
    | .node t pr _ _ => ed.selMatch t pr
    | .text _ => false

/-- One iteration of the first pass of `setLineNodesRanges`
(rendering.ts:38-58): resolve the keyed top-level child through
`combined.byKey` and record its range (and, for a combined section, the
ranges of the line elements inside it). -/
def rangeChild (ed : Editor) (doc : TextDocument) (byKey : List (String × CEntry))
    (ic : Nat × VChild) : RangeTable :=
  match truthyKey ic.2 with
  | none => []
  | some k =>
    match recGet byKey k with
    | none => []
    | some (.group g) =>
      ([ic.1], ((doc.getLineRangeF (g.lines.headD default)).1,
                (doc.getLineRangeF (g.lines.getLastD default)).2)) ::
      ((qsa ed (descChild [ic.1] ic.2)).filterMap fun pLe =>
        match childKey pLe.2 with
        | none => none
        | some k2 =>
          match doc.getLineByF k2 with
          | none => none
          | some line => some (pLe.1, doc.getLineRangeF line))
    | some (.line l) => [([ic.1], doc.getLineRangeF l)]

/-- `setLineNodesRanges` (rendering.ts:34-67) on the abstract screen: the
first pass walks `root.children` resolving each keyed child through
`combined.byKey` (a combined section gets the span from its first line's
start to its last line's end, and each inner line element its own line's
range); the second pass assigns ranges to any remaining keyed line elements
found under the root. `byKey` is the `combineLines(editor, doc.lines).byKey`
of the caller's cache state. An inner `getLineBy` miss skips the node (for
the second pass the external `getLineRange(undefined)` call is outside the
reviewed source and is modelled as assigning nothing). -/
def setLineNodesRangesM (ed : Editor) (doc : TextDocument)
    (byKey : List (String × CEntry)) (screen : List VChild) : RangeTable :=
  let pass1 : RangeTable := screen.enum.flatMap (rangeChild ed doc byKey)
  let pass2 : RangeTable :=
    (qsa ed (descList [] 0 screen)).filterMap fun pLe =>
      if (pass1.map Prod.fst).contains pLe.1 then none
      else
        match truthyKey pLe.2 with
        | none => none
        | some k =>
          match doc.getLineByF k with
          | none => none
          | some line => some (pLe.1, doc.getLineRangeF line)
  pass1 ++ pass2

/-- `Array.prototype.slice` index resolution (negative indexes count from
the end; both are clamped to `[0, len]`). -/
def jsSliceIdx (len : Nat) (i : Int) : Nat :=
  if i < 0 then ((len : Int) + i).toNat else min i.toNat len

/-- `Array.prototype.slice(s, e)`. -/
def jsSlice {α : Type} (l : List α) (s e : Int) : List α :=
  (l.take (jsSliceIdx l.length e)).drop (jsSliceIdx l.length s)

/-- `render` (rendering.ts:70-77): full render of `doc`, then the position
index pass. The patch primitive replaces the whole screen with the rendered
nodes; `setLineNodesRanges(editor)` reads `editor.doc`, which equals the
rendered `doc` in this flow. The `rendering`/`render`/`rendered` events are
notifications to external observers and carry no semantics here. Returns
the resulting screen, position index, and cache state. -/
def renderM (ed : Editor) (st : CombineState) (doc : TextDocument) :
    Except String (List VChild × RangeTable × CombineState) :=
  let c1 := combineLines ed st doc.linesRef doc.lines
  (renderCombined ed c1.1.combined).map fun nodes =>
    let c2 := combineLines ed c1.2 doc.linesRef doc.lines
    (nodes, setLineNodesRangesM ed doc c2.1.byKey nodes, c2.2)

/-- `renderChanges` (rendering.ts:80-107): diff the two units sequences,
widen the windows by one on each side when they differ (plus the screen
drift adjustment), fall back to a full render when both slices are empty,
otherwise patch only the slice (modelled as splicing the rendered new slice
in place of the old one) and rebuild the position index. `screen` is the
current `root.childNodes`. -/
def renderChangesM (ed : Editor) (st : CombineState) (oldDoc newDoc : TextDocument)
    (screen : List VChild) : Except String (List VChild × RangeTable × CombineState) :=
  let c1 := combineLines ed st oldDoc.linesRef oldDoc.lines
  let c2 := combineLines ed c1.2 newDoc.linesRef newDoc.lines
  let oldC := c1.1.combined
  let newC := c2.1.combined
  let r := getChangedRanges oldC newC
  let q : Int × Int × Int × Int :=
    if r.1 = r.2 then ((r.1.1 : Int), (r.1.2 : Int), (r.2.1 : Int), (r.2.2 : Int))
    else
      let os : Int := max 0 ((r.1.1 : Int) - 1)
      let ns : Int := max 0 ((r.2.1 : Int) - 1)
      let oe : Int := min (oldC.length : Int) ((r.1.2 : Int) + 1)
      let ne : Int := min (newC.length : Int) ((r.2.2 : Int) + 1)
      let oe2 : Int :=
        if screen.length ≠ oldC.length
        then oe + ((screen.length : Int) - (oldC.length : Int)) else oe
      (os, oe2, ns, ne)
  let oldSlice := jsSlice screen q.1 q.2.1
  let newSlice := jsSlice newC q.2.2.1 q.2.2.2
  if oldSlice.isEmpty ∧ newSlice.isEmpty then renderM ed c2.2 newDoc
  else
    (renderCombined ed newSlice).map fun nodes =>
      let a := jsSliceIdx screen.length q.1
      let b := jsSliceIdx screen.length q.2.1
      let screen2 := screen.take a ++ nodes ++ screen.drop (max a b)
      let c3 := combineLines ed c2.2 newDoc.linesRef newDoc.lines
      (screen2, setLineNodesRangesM ed newDoc c3.1.byKey screen2, c3.2)

/-! ## The pure (identity-erased) value of the grouping -/

/-- The value computed by the `combineLines` loop with all array identities
erased: what the grouping produces, independently of the `WeakMap` caches. -/
def pureLoop (ed : Editor) : List Line → List Line → List PEntry × List (String × PEntry)
  | _, [] => ([], [])
  | collect, line :: rest =>
    let t := getLineType ed line
    match t.shouldCombine with
    | some sc =>
      let collect' := collect ++ [line]
      let first := collect.headD line
      if closesAfter ed (getLineTypeIdx ed line) sc first rest then
        let out := pureLoop ed [] rest
        (PEntry.group collect' :: out.1, (first.id, PEntry.group collect') :: out.2)
      else pureLoop ed collect' rest
    | none =>
      if t.render.isSome then
        let out := pureLoop ed collect rest
        (PEntry.line line :: out.1, (line.id, PEntry.line line) :: out.2)
      else pureLoop ed collect rest

def pureCombined (ed : Editor) (lines : List Line) : List PEntry :=
  (pureLoop ed [] lines).1

def pureByKey (ed : Editor) (lines : List Line) : List (String × PEntry) :=
  (pureLoop ed [] lines).2

/-- Erase group identities from a `byKey` record. -/
def stripBK (bk : List (String × CEntry)) : List (String × PEntry) :=
  bk.map fun p => (p.1, stripE p.2)

/-- A line is kept by the grouping iff its resolved type either combines or
has a single-line renderer (rendering.ts:150/165): otherwise it is silently
dropped from the unit sequence. -/
def renderEligible (ed : Editor) (l : Line) : Bool :=
  (getLineType ed l).shouldCombine.isSome || (getLineType ed l).render.isSome

/-- The group objects among a list of entries. -/
def entryGroups (es : List CEntry) : List LineGroup :=
  es.filterMap fun e => match e with | .group g => some g | .line _ => none

/-- All group objects reachable from the caches: the values of
`linesMultiples` and the groups inside every memoized `combined` value. -/
def stateGroups (st : CombineState) : List LineGroup :=
  st.multiples.map (fun p => p.2) ++
    st.combinedMemo.flatMap fun p => entryGroups p.2.combined

/-- Heap consistency of group array objects: every reachable nonce is below
the allocator and nonces identify groups (as JavaScript object identity
does). Any state produced by actual runs satisfies this. -/
def GroupsOK (gs : List LineGroup) (fresh : Nat) : Prop :=
  (∀ g ∈ gs, g.ref < fresh) ∧ ∀ g ∈ gs, ∀ g2 ∈ gs, g.ref = g2.ref → g = g2

/-- Consistency of a cache state: reachable groups are heap-consistent and
every memoized result is the grouping of the very lines it is keyed by
(array objects are immutable, so a cache entry can never go stale). States
reachable from the empty caches satisfy this invariant. -/
def StateOK (ed : Editor) (st : CombineState) : Prop :=
  GroupsOK (stateGroups st) st.fresh ∧
  ∀ la d, wmGet st.combinedMemo la = some d →
    d.combined.map stripE = pureCombined ed la.2 ∧
    stripBK d.byKey = pureByKey ed la.2

/-! ## Concrete fixtures (a small typeset and document used as witnesses) -/

/-- A paragraph line type: single-line renderer only. -/
def plainType : LineType :=
  ⟨some (fun _ cs => .node "p" [] none cs), none, none⟩

/-- A bullet-list line type: combinable, rendered through `renderMultiple`
into one `ul` with an `li` per member line. -/
def bulletType : LineType :=
  ⟨some (fun _ cs => .node "li" [] none cs),
   some (fun ls => .node "ul" [] none (ls.map fun t => .node "li" [] (some t.2.2) t.2.1)),
   some (fun a b => lookupA a "list" == lookupA b "list")⟩

/-- A registered line type with no renderer at all: its lines are dropped. -/
def deadLineType : LineType := ⟨none, none, none⟩

/-- A combinable line type whose `renderMultiple` is missing. -/
def brokenMultiType : LineType :=
  ⟨some (fun _ cs => .node "p" [] none cs), none,
   some (fun _ _ => true)⟩

def linkFmt : FormatType :=
  ⟨"link", some (fun attrs cs =>
    some (.node "a" [("href", (lookupA attrs "link").getD .null)] none cs))⟩

def boldFmt : FormatType :=
  ⟨"bold", some (fun _ cs => some (.node "strong" [] none cs))⟩

/-- A format type that resolves but has no render function. -/
def deadFmt : FormatType := ⟨"dead", none⟩

/-- The witness editor: paragraphs, bullet lists, a renderless line type, a
`link`/`bold` format pair with priority(link) < priority(bold), and a
renderless `dead` format. -/
def edW : Editor where
  lineTypes := fun i =>
    if i = 1 then bulletType else if i = 2 then deadLineType
    else if i = 3 then brokenMultiType else plainType
  linesFindIdx := fun attrs =>
    match lookupA attrs "list" with
    | some _ => 1
    | none =>
      match lookupA attrs "dead" with
      | some _ => 2
      | none => match lookupA attrs "broken" with | some _ => 3 | none => 0
  formatTypes := fun i => if i = 0 then linkFmt else if i = 1 then boldFmt else deadFmt
  formatsGetIdx := fun n =>
    if n = "link" then some 0 else if n = "bold" then some 1
    else if n = "dead" then some 2 else none
  priority := fun n => if n = "link" then 0 else if n = "bold" then 1 else 2
  embedsFind := fun _ => none
  selMatch := fun t _ => t == "p" || t == "li"
  applyDecorations := fun n _ => n

def lineA : Line := ⟨0, "a", [("list", .str "bullet")], [⟨.text "A", none⟩]⟩
def lineB : Line := ⟨1, "b", [("list", .str "bullet")], [⟨.text "B", none⟩]⟩
def lineC : Line := ⟨2, "c", [], [⟨.text "C", none⟩]⟩
def lineDead : Line := ⟨3, "d", [("dead", .bool true)], []⟩
def lineBroken : Line := ⟨4, "e", [("broken", .bool true)], []⟩

/-- The witness editor with the `link`/`bold` priorities as parameters. -/
def edC8 (pL pB : Int) : Editor :=
  { edW with priority := fun n => if n = "link" then pL else pB }

def lineC2 : Line := ⟨5, "f", [], [⟨.text "F", none⟩]⟩

/-- Witness documents: the old snapshot holds one plain paragraph, the new
snapshot has a second paragraph appended after it. -/
def docW1 : TextDocument := ⟨30, [lineC], fun _ => (0, 2), fun _ => none⟩

def docW2 : TextDocument :=
  ⟨31, [lineC, lineC2], fun l => if l = lineC then (0, 2) else (2, 4), fun _ => none⟩

/-! ## Basic lemmas about the cache maps and `isSame` -/

theorem wmGet_cons_self {κ ν : Type} [DecidableEq κ] (m : List (κ × ν)) (k : κ) (v : ν) :
    wmGet ((k, v) :: m) k = some v := by
  simp [wmGet]

theorem isSame_refl (e : CEntry) : isSame e e = true := by
  cases e <;> simp [isSame]

theorem firstDiff_self_append (l t : List CEntry) : firstDiff l (l ++ t) = none := by
  induction l with
  | nil => cases t <;> rfl
  | cons a as ih => simp [firstDiff, isSame_refl, ih]

/-! ## Claim C4: whole-result memoization of `combineLines` -/

/-- C4: calling `combineLines` a second time with the same `Line[]` array
object returns the very result object the first call produced (the cached
`\x7bcombined, byKey\x7d`), and leaves the cache state unchanged: the second
call is a pure cache hit, with no recomputation of the grouping. -/
theorem combineLines_memoized (ed : Editor) (st : CombineState) (laRef : Nat)
    (lines : List Line) :
    combineLines ed (combineLines ed st laRef lines).2 laRef lines =
      combineLines ed st laRef lines := by
  unfold combineLines
  cases h : wmGet st.combinedMemo (laRef, lines) with
  | some cache => simp [h]
  | none => simp [h, wmGet_cons_self]

/-! ## Claim C5: combined-group identity reuse in the closing step -/

/-- C5: when `combineLines` closes a combined group (rendering.ts:153-163)
whose first line has a previously memoized group with the same length and
pairwise reference-identical members, the group object pushed into the
output IS the memoized object and the memo is untouched; otherwise a fresh
group object is pushed and replaces the memo recorded for the first line. -/
theorem closeCollect_reuse_or_replace (st : CombineState) (c0 : Line) (rest : List Line) :
    (∀ last, wmGet st.multiples c0 = some last → last.lines = c0 :: rest →
        closeCollect st (c0 :: rest) = (last, st)) ∧
    (∀ last, wmGet st.multiples c0 = some last → last.lines ≠ c0 :: rest →
        (closeCollect st (c0 :: rest)).1.lines = c0 :: rest ∧
        wmGet (closeCollect st (c0 :: rest)).2.multiples c0 =
          some (closeCollect st (c0 :: rest)).1) ∧
    (wmGet st.multiples c0 = none →
        (closeCollect st (c0 :: rest)).1.lines = c0 :: rest ∧
        wmGet (closeCollect st (c0 :: rest)).2.multiples c0 =
          some (closeCollect st (c0 :: rest)).1) := by
  refine ⟨fun last hget hlines => ?_, fun last hget hlines => ?_, fun hget => ?_⟩
  · simp [closeCollect, hget, hlines]
  · simp [closeCollect, hget, hlines, wmGet_cons_self]
  · simp [closeCollect, hget, wmGet_cons_self]

/-- Witness for C5: a concrete reuse of a previously memoized group. -/
theorem closeCollect_reuse_witness :
    closeCollect ⟨[(lineA, ⟨5, [lineA, lineB]⟩)], [], 6⟩ [lineA, lineB] =
      (⟨5, [lineA, lineB]⟩, ⟨[(lineA, ⟨5, [lineA, lineB]⟩)], [], 6⟩) :=
  (closeCollect_reuse_or_replace ⟨[(lineA, ⟨5, [lineA, lineB]⟩)], [], 6⟩ lineA [lineB]).1
    ⟨5, [lineA, lineB]⟩ (by decide) (by decide)

/-! ## Claim C2: the changed-ranges windows for an appended unit -/

/-- C2, counterexample: for `oldUnits = [a]` (`n = 1`) and one appended
unit, `getChangedRanges` does NOT return the claimed `([n, n), [n, n+1))`
windows: the forward scan finds no mismatch within the common length and
leaves both starts at their initial value `0`. -/
theorem getChangedRanges_append_counterexample :
    getChangedRanges [CEntry.line lineA] [CEntry.line lineA, CEntry.line lineC] ≠
      ((1, 1), (1, 2)) := by decide

/-- C2, amended: for a single appended (not-`isSame`) unit the old window is
`[0, n)` and the new window `[0, n+1)` - the ends come from the backward
scan as the claim says, but both starts stay `0`, because the forward scan
sets the start only upon finding a mismatch within the common length and
the common prefix here fully matches. -/
theorem getChangedRanges_append (old : List CEntry) (x : CEntry) (hne : old ≠ [])
    (hx : isSame (old.getLast hne) x = false) :
    getChangedRanges old (old ++ [x]) = ((0, old.length), (0, old.length + 1)) := by
  have hrev : (old ++ [x]).reverse = x :: old.reverse := by
    simp
  have hold : old.reverse = old.getLast hne :: old.dropLast.reverse := by
    conv_lhs => rw [← List.dropLast_append_getLast hne]
    simp
  unfold getChangedRanges
  rw [firstDiff_self_append, hrev, hold]
  simp [firstDiff, hx]

/-- Witness for the amended C2 at `n = 1`. -/
theorem getChangedRanges_append_witness :
    getChangedRanges [CEntry.line lineA] [CEntry.line lineA, CEntry.line lineC] =
      ((0, 1), (0, 2)) :=
  getChangedRanges_append [CEntry.line lineA] (CEntry.line lineC) (by decide) (by decide)

/-! ## Claim C9: sibling merging when appending children -/

/-- C9: appending a child next to existing children merges adjacent
plain-text children into one concatenated text child, and merges adjacent
nodes of identical type and equal props by concatenating their child lists;
in particular two consecutive unattributed text operations render to a
single concatenated text child. -/
theorem addOrMergeChild_merges (ed : Editor) :
    (∀ (l : List VChild) (s1 s2 : String),
        addOrMergeChild (l ++ [.text s1]) (.text s2) = l ++ [.text (s1 ++ s2)]) ∧
    (∀ (l : List VChild) (t : String) (p p2 : AttributeMap) (k k2 : Option String)
        (cs cs2 : List VChild), propsEqual p p2 = true →
        addOrMergeChild (l ++ [.node t p k cs]) (.node t p2 k2 cs2) =
          l ++ [.node t p k (cs ++ cs2)]) ∧
    (∀ (s1 s2 : String),
        renderInline ed [⟨.text s1, none⟩, ⟨.text s2, none⟩] =
          [.text (transformText none (some ⟨.text s2, none⟩) s1 ++
                  transformText (some ⟨.text s1, none⟩) none s2)]) := by
  refine ⟨fun l s1 s2 => ?_, fun l t p p2 k k2 cs cs2 hp => ?_, fun s1 s2 => ?_⟩
  · have h1 : (l ++ [VChild.text s1]).getLast? = some (VChild.text s1) := by simp
    have h2 : (l ++ [VChild.text s1]).dropLast = l := by simp
    simp [addOrMergeChild, h1, h2]
  · have h1 : (l ++ [VChild.node t p k cs]).getLast? = some (VChild.node t p k cs) := by simp
    have h2 : (l ++ [VChild.node t p k cs]).dropLast = l := by simp
    simp [addOrMergeChild, h1, h2, hp]
  · rfl

/-- Witness for C9 (the node-merge conjunct has a `propsEqual` hypothesis):
concrete instances of all three merge behaviours. -/
theorem addOrMergeChild_merges_witness :
    addOrMergeChild [VChild.text "x"] (.text "y") = [.text "xy"] ∧
    addOrMergeChild [VChild.node "em" [] none [.text "x"]] (.node "em" [] none [.text "y"]) =
      [.node "em" [] none [.text "x", .text "y"]] ∧
    renderInline edW [⟨.text "ab", none⟩, ⟨.text "cd", none⟩] = [.text "abcd"] :=
  ⟨(addOrMergeChild_merges edW).1 [] "x" "y",
   (addOrMergeChild_merges edW).2.1 [] "em" [] [] none none [.text "x"] [.text "y"] (by decide),
   (addOrMergeChild_merges edW).2.2 "ab" "cd"⟩

/-! ## Claim C6: missing line renderers raise an error -/

/-- C6: rendering a unit whose resolved line type lacks the required render
function raises the fatal error immediately: `renderSingleLine` throws when
the type has no `render`, and `renderMultiLine` throws when the first member
line's type has no `renderMultiple`. -/
theorem render_missing_renderer_throws (ed : Editor) :
    (∀ line, (getLineType ed line).render = none →
        renderSingleLine ed line = .error "No render method defined for line") ∧
    (∀ l0 rest, (getLineType ed l0).renderMultiple = none →
        renderMultiLine ed (l0 :: rest) = .error "No render method defined for line") := by
  constructor
  · intro line h
    simp [renderSingleLine, h]
  · intro l0 rest h
    simp [renderMultiLine, h]

/-- Witness for C6 on the concrete typeset: a renderless line type and a
combinable type without `renderMultiple`. -/
theorem render_missing_renderer_throws_witness :
    renderSingleLine edW lineDead = .error "No render method defined for line" ∧
    renderMultiLine edW [lineBroken] = .error "No render method defined for line" :=
  ⟨(render_missing_renderer_throws edW).1 lineDead rfl,
   (render_missing_renderer_throws edW).2 lineBroken [] rfl⟩

/-! ## Claim C8: priority-ordered nesting of inline formats -/

/-- C8: for one text operation with attributes `\x7bbold: true, link: "u"\x7d`
where priority(link) < priority(bold) and both formats render, the produced
tree is a link node wrapping a bold node wrapping the text: lower-priority
formats wrap outer, and frames are finalized bottom-up into their parents. -/
theorem renderInline_priority_nesting (pL pB : Int) (h : pL < pB) (s : String) :
    renderInline (edC8 pL pB) [⟨.text s, some [("bold", .bool true), ("link", .str "u")]⟩] =
      [.node "a" [("href", .str "u")] none
        [.node "strong" [] none [.text (transformText none none s)]]] := by
  have hd : decide ((edC8 pL pB).priority "bold" ≤ (edC8 pL pB).priority "link") = false := by
    have hb : (edC8 pL pB).priority "bold" = pB := rfl
    have hl : (edC8 pL pB).priority "link" = pL := rfl
    have hn : ¬ ((edC8 pL pB).priority "bold" ≤ (edC8 pL pB).priority "link") := by
      rw [hb, hl]; omega
    exact decide_eq_false hn
  simp only [renderInline, inlineOps, processOp, jsStableSort, jsStableInsert, hd]
  rfl

/-- Witness for C8 at concrete priorities `0 < 1`. -/
theorem renderInline_priority_nesting_witness :
    renderInline (edC8 0 1) [⟨.text "t", some [("bold", .bool true), ("link", .str "u")]⟩] =
      [.node "a" [("href", .str "u")] none
        [.node "strong" [] none [.text (transformText none none "t")]]] :=
  renderInline_priority_nesting 0 1 (by decide) "t"

/-! ## Claim C7: a renderless format is silently skipped -/

theorem collapsePop_removeFormat (ed : Editor) (n : String)
    (pops : List InlineStackItem) (ch : Option (List VChild)) :
    collapsePop (removeFormat ed n) pops ch = collapsePop ed pops ch := by
  induction pops generalizing ch with
  | nil => rfl
  | cons item rest ih =>
    have hft : (removeFormat ed n).formatTypes = ed.formatTypes := rfl
    cases hr : (ed.formatTypes item.typeIdx).render with
    | none => simp only [collapsePop, hft, hr]
    | some r =>
      simp only [collapsePop, hft, hr]
      cases hn : r item.attributes (combineChildren item.content ch) with
      | some node => simp only [hn, ih]
      | none => simp only [hn, ih]

theorem collapseStack_removeFormat (ed : Editor) (n : String) (s : InlineState)
    (fromIdx : Nat) :
    collapseStack (removeFormat ed n) s fromIdx = collapseStack ed s fromIdx := by
  simp only [collapseStack, collapsePop_removeFormat]

theorem insertStackItem_removeFormat (ed : Editor) (n : String) (s : InlineState)
    (index tIdx : Nat) (attrs : AttributeMap) :
    insertStackItem (removeFormat ed n) s index tIdx attrs =
      insertStackItem ed s index tIdx attrs := by
  have hft : (removeFormat ed n).formatTypes = ed.formatTypes := rfl
  simp only [insertStackItem, hft, collapseStack_removeFormat]

theorem formatStep_removeFormat (ed : Editor) (n : String) (i : Nat)
    (hget : ed.formatsGetIdx n = some i)
    (hrender : (ed.formatTypes i).render = none)
    (attrs : AttributeMap) (acc : InlineState × Nat) (name : String) :
    formatStep (removeFormat ed n) attrs acc name = formatStep ed attrs acc name := by
  by_cases hn : name = n
  · subst hn
    have h1 : (removeFormat ed name).formatsGetIdx name = none := by simp [removeFormat]
    simp [formatStep, h1, hget, hrender]
  · have h1 : (removeFormat ed n).formatsGetIdx name = ed.formatsGetIdx name := by
      simp [removeFormat, hn]
    have hft : (removeFormat ed n).formatTypes = ed.formatTypes := rfl
    simp only [formatStep, h1, hft]
    cases ed.formatsGetIdx name with
    | none => rfl
    | some ti => simp only [insertStackItem_removeFormat]

theorem processOp_removeFormat (ed : Editor) (n : String) (i : Nat)
    (hget : ed.formatsGetIdx n = some i)
    (hrender : (ed.formatTypes i).render = none)
    (s : InlineState) (prev : Option Op) (op : Op) (next : Option Op) :
    processOp (removeFormat ed n) s prev op next = processOp ed s prev op next := by
  have hemb : (removeFormat ed n).embedsFind = ed.embedsFind := rfl
  have hpri : (removeFormat ed n).priority = ed.priority := rfl
  have hfs : formatStep (removeFormat ed n) = formatStep ed := by
    funext attrs acc name
    exact formatStep_removeFormat ed n i hget hrender attrs acc name
  simp only [processOp, hemb, hpri, hfs, collapseStack_removeFormat]

theorem inlineOps_removeFormat (ed : Editor) (n : String) (i : Nat)
    (hget : ed.formatsGetIdx n = some i)
    (hrender : (ed.formatTypes i).render = none)
    (prev : Option Op) (ops : List Op) (s : InlineState) :
    inlineOps (removeFormat ed n) prev ops s = inlineOps ed prev ops s := by
  induction ops generalizing prev s with
  | nil => rfl
  | cons op rest ih =>
    simp only [inlineOps, processOp_removeFormat ed n i hget hrender, ih]

/-- C7: during inline composition, an attribute whose format type resolves
but has no render function is never pushed onto the stack and raises no
error - the whole render is exactly what it would be if that format name
were not registered at all: the operation's content and all other
formatting frames are rendered unchanged. -/
theorem renderInline_skips_renderless_format (ed : Editor) (n : String) (i : Nat)
    (hget : ed.formatsGetIdx n = some i)
    (hrender : (ed.formatTypes i).render = none) (delta : Delta) :
    renderInline ed delta = renderInline (removeFormat ed n) delta := by
  simp only [renderInline, inlineOps_removeFormat ed n i hget hrender,
    collapseStack_removeFormat]

/-- Witness for C7: the renderless `dead` format of the witness editor. -/
theorem renderInline_skips_renderless_format_witness :
    renderInline edW [⟨.text "a", some [("dead", .bool true)]⟩, ⟨.text "b", none⟩] =
      renderInline (removeFormat edW "dead")
        [⟨.text "a", some [("dead", .bool true)]⟩, ⟨.text "b", none⟩] :=
  renderInline_skips_renderless_format edW "dead" 2 rfl rfl _

/-! ## Claim C3: the grouping is a partition of the eligible lines -/

theorem closeCollect_fst_lines (st : CombineState) (c0 : Line) (cs : List Line) :
    (closeCollect st (c0 :: cs)).1.lines = c0 :: cs := by
  cases h : wmGet st.multiples c0 with
  | none => simp [closeCollect, h]
  | some last =>
    by_cases hl : last.lines = c0 :: cs
    · simp [closeCollect, h, hl]
    · simp [closeCollect, h, hl]

/-- When the chain does not close, the next line exists and resolves to the
same (combinable) type. -/
theorem not_closesAfter (ed : Editor) (line : Line) (sc : AttributeMap → AttributeMap → Bool)
    (first : Line) (rest : List Line)
    (hsc : (getLineType ed line).shouldCombine = some sc)
    (hcl : closesAfter ed (getLineTypeIdx ed line) sc first rest = false) :
    ∃ next rest2, rest = next :: rest2 ∧
      (getLineType ed next).shouldCombine = some sc := by
  cases hr : rest with
  | nil =>
    rw [hr] at hcl
    simp [closesAfter] at hcl
  | cons next rest2 =>
    subst hr
    simp only [closesAfter, List.head?_cons, Bool.or_eq_false_iff,
      decide_eq_false_iff_not] at hcl
    have hidx : getLineTypeIdx ed next = getLineTypeIdx ed line := not_not.mp hcl.1
    have hty : getLineType ed next = getLineType ed line := by
      unfold getLineType
      rw [hidx]
    exact ⟨next, rest2, rfl, by rw [hty, hsc]⟩

/-- The loop invariant behind the partition property: with an empty or
chain-continuing collect, the member lines of the produced units are the
collect followed by exactly the render-eligible input lines, in order. -/
theorem flattenE_combineLoop (ed : Editor) (st : CombineState) (collect lines : List Line)
    (hinv : collect = [] ∨
      ∃ l rest, lines = l :: rest ∧ (getLineType ed l).shouldCombine.isSome) :
    flattenE (combineLoop ed st collect lines).1 =
      collect ++ lines.filter (renderEligible ed) := by
  induction lines generalizing st collect with
  | nil =>
    have hc : collect = [] := by
      rcases hinv with h | ⟨l, rest, h, _⟩
      · exact h
      · cases h
    subst hc
    simp [combineLoop, flattenE]
  | cons line rest ih =>
    cases hsc : (getLineType ed line).shouldCombine with
    | some sc =>
      have hel : renderEligible ed line = true := by simp [renderEligible, hsc]
      cases hcl : closesAfter ed (getLineTypeIdx ed line) sc (collect.headD line) rest with
      | true =>
        have hlines : (closeCollect st (collect ++ [line])).1.lines = collect ++ [line] := by
          cases collect with
          | nil => exact closeCollect_fst_lines st line []
          | cons c0 cs => exact closeCollect_fst_lines st c0 (cs ++ [line])
        simp only [combineLoop, hsc, hcl, if_true, flattenE, List.flatMap_cons]
        have ihr := ih (closeCollect st (collect ++ [line])).2 [] (Or.inl rfl)
        simp only [flattenE] at ihr
        rw [ihr, hlines, List.filter_cons_of_pos hel]
        simp
      | false =>
        simp only [combineLoop, hsc, hcl]
        rw [if_neg Bool.false_ne_true]
        obtain ⟨next, rest2, hr, hnext⟩ :=
          not_closesAfter ed line sc (collect.headD line) rest hsc hcl
        have ihr := ih st (collect ++ [line])
          (Or.inr ⟨next, rest2, hr, by rw [hnext]; rfl⟩)
        rw [ihr, List.filter_cons_of_pos hel]
        simp
    | none =>
      have hc : collect = [] := by
        rcases hinv with h | ⟨l, r2, h, hcomb⟩
        · exact h
        · cases h
          rw [hsc] at hcomb
          cases hcomb
      subst hc
      cases hr : (getLineType ed line).render with
      | some r =>
        have hel : renderEligible ed line = true := by simp [renderEligible, hr]
        simp only [combineLoop, hsc, hr, Option.isSome_some, if_true, flattenE,
          List.flatMap_cons]
        have ihr := ih st [] (Or.inl rfl)
        simp only [flattenE] at ihr
        rw [ihr, List.filter_cons_of_pos hel]
        simp
      | none =>
        have hel : renderEligible ed line = false := by simp [renderEligible, hsc, hr]
        simp only [combineLoop, hsc, hr, Option.isSome_none]
        rw [if_neg Bool.false_ne_true]
        have ihr := ih st [] (Or.inl rfl)
        rw [ihr, List.filter_cons_of_neg (by simp [hel])]

/-- C3: concatenating in order the member lines of the units produced by
`combineLines` reproduces the input line sequence exactly, minus the lines
whose resolved type is not render-eligible (neither combinable nor
renderable), which are excluded; hence every kept line occurs in exactly
one unit and unit order preserves line order. -/
theorem combineLines_partition (ed : Editor) (st : CombineState) (laRef : Nat)
    (lines : List Line)
    (hmiss : wmGet st.combinedMemo (laRef, lines) = none) :
    flattenE (combineLines ed st laRef lines).1.combined =
      lines.filter (renderEligible ed) := by
  simp only [combineLines, hmiss]
  exact flattenE_combineLoop ed st [] lines (Or.inl rfl)

/-- Witness for C3: the bullet pair combines, the paragraph stays single,
and the renderless line is dropped. -/
theorem combineLines_partition_witness :
    flattenE (combineLines edW emptyState 7 [lineA, lineB, lineC, lineDead]).1.combined =
      [lineA, lineB, lineC, lineDead].filter (renderEligible edW) :=
  combineLines_partition edW emptyState 7 [lineA, lineB, lineC, lineDead] rfl

/-! ## Claim C10: combinable lines always land in array units -/

/-- Every line of a combinable type (and every line of the open collect)
ends up inside some array unit of the loop output. -/
theorem combineLoop_combinable_in_group (ed : Editor) (st : CombineState)
    (collect lines : List Line)
    (hinv : collect = [] ∨
      ∃ l r2, lines = l :: r2 ∧ (getLineType ed l).shouldCombine.isSome)
    (l : Line)
    (hl : l ∈ collect ∨ (l ∈ lines ∧ (getLineType ed l).shouldCombine.isSome)) :
    ∃ g, CEntry.group g ∈ (combineLoop ed st collect lines).1 ∧ l ∈ g.lines := by
  induction lines generalizing st collect with
  | nil =>
    have hc : collect = [] := by
      rcases hinv with h | ⟨x, r2, h, _⟩
      · exact h
      · cases h
    subst hc
    rcases hl with h | ⟨h, _⟩ <;> cases h
  | cons line rest ih =>
    cases hsc : (getLineType ed line).shouldCombine with
    | some sc =>
      cases hcl : closesAfter ed (getLineTypeIdx ed line) sc (collect.headD line) rest with
      | true =>
        have hlines : (closeCollect st (collect ++ [line])).1.lines = collect ++ [line] := by
          cases collect with
          | nil => exact closeCollect_fst_lines st line []
          | cons c0 cs => exact closeCollect_fst_lines st c0 (cs ++ [line])
        have hhead : CEntry.group (closeCollect st (collect ++ [line])).1 ∈
            (combineLoop ed st collect (line :: rest)).1 := by
          simp only [combineLoop, hsc, hcl, if_true]
          exact List.mem_cons_self _ _
        rcases hl with h | ⟨h, hcomb⟩
        · exact ⟨_, hhead, by rw [hlines]; exact List.mem_append_left _ h⟩
        · rcases List.mem_cons.mp h with rfl | hr
          · exact ⟨_, hhead, by rw [hlines]; exact List.mem_append_right _ (by simp)⟩
          · obtain ⟨g, hg, hm⟩ :=
              ih (closeCollect st (collect ++ [line])).2 [] (Or.inl rfl)
                (Or.inr ⟨hr, hcomb⟩)
            refine ⟨g, ?_, hm⟩
            simp only [combineLoop, hsc, hcl, if_true]
            exact List.mem_cons_of_mem _ hg
      | false =>
        obtain ⟨next, rest2, hr, hnext⟩ :=
          not_closesAfter ed line sc (collect.headD line) rest hsc hcl
        have hl2 : l ∈ collect ++ [line] ∨
            (l ∈ rest ∧ (getLineType ed l).shouldCombine.isSome) := by
          rcases hl with h | ⟨h, hcomb⟩
          · exact Or.inl (List.mem_append_left _ h)
          · rcases List.mem_cons.mp h with rfl | hmem
            · exact Or.inl (List.mem_append_right _ (by simp))
            · exact Or.inr ⟨hmem, hcomb⟩
        obtain ⟨g, hg, hm⟩ :=
          ih st (collect ++ [line]) (Or.inr ⟨next, rest2, hr, by rw [hnext]; rfl⟩) hl2
        refine ⟨g, ?_, hm⟩
        simpa only [combineLoop, hsc, hcl, if_neg Bool.false_ne_true] using hg
    | none =>
      have hc : collect = [] := by
        rcases hinv with h | ⟨x, r2, h, hcomb⟩
        · exact h
        · cases h
          rw [hsc] at hcomb
          cases hcomb
      subst hc
      have hl2 : l ∈ rest ∧ (getLineType ed l).shouldCombine.isSome := by
        rcases hl with h | ⟨h, hcomb⟩
        · cases h
        · rcases List.mem_cons.mp h with rfl | hmem
          · rw [hsc] at hcomb; cases hcomb
          · exact ⟨hmem, hcomb⟩
      obtain ⟨g, hg, hm⟩ := ih st [] (Or.inl rfl) (Or.inr hl2)
      refine ⟨g, ?_, hm⟩
      cases hrend : (getLineType ed line).render with
      | some r =>
        simp only [combineLoop, hsc, hrend, Option.isSome_some, if_true]
        exact List.mem_cons_of_mem _ hg
      | none =>
        simpa only [combineLoop, hsc, hrend, Option.isSome_none,
          if_neg Bool.false_ne_true] using hg

/-- Every singleton unit of the loop output has a non-combinable,
renderable type. -/
theorem combineLoop_single_entry_shape (ed : Editor) (st : CombineState)
    (collect lines : List Line) (l : Line)
    (hmem : CEntry.line l ∈ (combineLoop ed st collect lines).1) :
    (getLineType ed l).shouldCombine = none ∧ (getLineType ed l).render.isSome := by
  induction lines generalizing st collect with
  | nil => simp [combineLoop] at hmem
  | cons line rest ih =>
    cases hsc : (getLineType ed line).shouldCombine with
    | some sc =>
      cases hcl : closesAfter ed (getLineTypeIdx ed line) sc (collect.headD line) rest with
      | true =>
        simp only [combineLoop, hsc, hcl, if_true, List.mem_cons] at hmem
        rcases hmem with h | h
        · cases h
        · exact ih _ _ h
      | false =>
        rw [show (combineLoop ed st collect (line :: rest)).1 =
            (combineLoop ed st (collect ++ [line]) rest).1 by
          simp only [combineLoop, hsc, hcl, if_neg Bool.false_ne_true]] at hmem
        exact ih _ _ hmem
    | none =>
      cases hrend : (getLineType ed line).render with
      | some r =>
        simp only [combineLoop, hsc, hrend, Option.isSome_some, if_true,
          List.mem_cons] at hmem
        rcases hmem with h | h
        · cases h
          exact ⟨hsc, by rw [hrend]; rfl⟩
        · exact ih _ _ h
      | none =>
        rw [show (combineLoop ed st collect (line :: rest)).1 =
            (combineLoop ed st collect rest).1 by
          simp only [combineLoop, hsc, hrend, Option.isSome_none,
            if_neg Bool.false_ne_true]] at hmem
        exact ih _ _ hmem

/-- C10: every line whose resolved type declares `shouldCombine` is emitted
by `combineLines` inside an array unit (even as a one-element group);
singleton units only arise for non-combinable types; and an array unit is
dispatched to `renderMultiple` (and a singleton to the single-line
renderer) by `renderLine`. -/
theorem combinable_lines_in_array_units (ed : Editor) (st : CombineState)
    (laRef : Nat) (lines : List Line)
    (hmiss : wmGet st.combinedMemo (laRef, lines) = none) :
    (∀ l ∈ lines, (getLineType ed l).shouldCombine.isSome →
        ∃ g, CEntry.group g ∈ (combineLines ed st laRef lines).1.combined ∧
          l ∈ g.lines) ∧
    (∀ l, CEntry.line l ∈ (combineLines ed st laRef lines).1.combined →
        (getLineType ed l).shouldCombine = none) ∧
    (∀ g, renderLine ed (CEntry.group g) = renderMultiLine ed g.lines) ∧
    (∀ l, renderLine ed (CEntry.line l) = renderSingleLine ed l) := by
  refine ⟨?_, ?_, fun g => rfl, fun l => rfl⟩
  · intro l hl hcomb
    simp only [combineLines, hmiss]
    exact combineLoop_combinable_in_group ed st [] lines (Or.inl rfl) l
      (Or.inr ⟨hl, hcomb⟩)
  · intro l hl
    simp only [combineLines, hmiss] at hl
    exact (combineLoop_single_entry_shape ed st [] lines l hl).1

/-- Witness for C10: a lone bullet line becomes a one-element array unit,
and array units are rendered through `renderMultiLine`. -/
theorem combinable_lines_in_array_units_witness :
    (∃ g, CEntry.group g ∈ (combineLines edW emptyState 9 [lineA]).1.combined ∧
      lineA ∈ g.lines) ∧
    renderLine edW (CEntry.group ⟨0, [lineA]⟩) = renderMultiLine edW [lineA] :=
  ⟨(combinable_lines_in_array_units edW emptyState 9 [lineA] rfl).1 lineA (by simp) rfl,
   (combinable_lines_in_array_units edW emptyState 9 [lineA] rfl).2.2.1 ⟨0, [lineA]⟩⟩

/-! ## Claim C1, stage 1: the loop computes the pure grouping value -/

/-- The cache state influences only object identities, never the grouping
value: stripping identities from the loop output yields `pureLoop`. -/
theorem combineLoop_strip (ed : Editor) (lines : List Line) :
    ∀ (st : CombineState) (collect : List Line),
      (combineLoop ed st collect lines).1.map stripE = (pureLoop ed collect lines).1 ∧
      stripBK (combineLoop ed st collect lines).2.1 = (pureLoop ed collect lines).2 := by
  induction lines with
  | nil => intro st collect; simp [combineLoop, pureLoop, stripBK]
  | cons line rest ih =>
    intro st collect
    cases hsc : (getLineType ed line).shouldCombine with
    | some sc =>
      cases hcl : closesAfter ed (getLineTypeIdx ed line) sc (collect.headD line) rest with
      | true =>
        have hlines : (closeCollect st (collect ++ [line])).1.lines = collect ++ [line] := by
          cases collect with
          | nil => exact closeCollect_fst_lines st line []
          | cons c0 cs => exact closeCollect_fst_lines st c0 (cs ++ [line])
        have hstrip : stripE (CEntry.group (closeCollect st (collect ++ [line])).1) =
            PEntry.group (collect ++ [line]) := by
          simp [stripE, hlines]
        simp only [combineLoop, pureLoop, hsc, hcl, if_true, List.map_cons, stripBK]
        constructor
        · rw [hstrip, (ih _ _).1]
        · have h2 := (ih (closeCollect st (collect ++ [line])).2 []).2
          simp only [stripBK] at h2
          rw [hstrip, h2]
      | false =>
        simp only [combineLoop, pureLoop, hsc, hcl, if_neg Bool.false_ne_true]
        exact ih st (collect ++ [line])
    | none =>
      cases hrend : (getLineType ed line).render with
      | some r =>
        simp only [combineLoop, pureLoop, hsc, hrend, Option.isSome_some, if_true,
          List.map_cons, stripBK]
        constructor
        · rw [(ih _ _).1]
          rfl
        · have h2 := (ih st collect).2
          simp only [stripBK] at h2
          rw [h2]
          rfl
      | none =>
        simp only [combineLoop, pureLoop, hsc, hrend, Option.isSome_none,
          if_neg Bool.false_ne_true]
        exact ih st collect

/-! ## Claim C1, stage 2: heap consistency of group identities -/

theorem GroupsOK_subset (gs gs2 : List LineGroup) (fresh : Nat)
    (hsub : ∀ g ∈ gs2, g ∈ gs) (h : GroupsOK gs fresh) : GroupsOK gs2 fresh :=
  ⟨fun g hg => h.1 g (hsub g hg),
   fun g hg g2 hg2 he => h.2 g (hsub g hg) g2 (hsub g2 hg2) he⟩

theorem GroupsOK_mono_fresh (gs : List LineGroup) (f f2 : Nat) (hle : f ≤ f2)
    (h : GroupsOK gs f) : GroupsOK gs f2 :=
  ⟨fun g hg => lt_of_lt_of_le (h.1 g hg) hle, h.2⟩

theorem GroupsOK_cons_fresh (gs : List LineGroup) (f : Nat) (g : LineGroup)
    (h : GroupsOK gs f) (hg : g.ref = f) : GroupsOK (g :: gs) (f + 1) := by
  constructor
  · intro x hx
    rcases List.mem_cons.mp hx with hx1 | hx2
    · subst hx1; omega
    · exact lt_of_lt_of_le (h.1 x hx2) (Nat.le_succ f)
  · intro x hx y hy he
    rcases List.mem_cons.mp hx with hx1 | hx2 <;> rcases List.mem_cons.mp hy with hy1 | hy2
    · rw [hx1, hy1]
    · subst hx1
      exfalso
      have hyf := h.1 y hy2
      omega
    · subst hy1
      exfalso
      have hxf := h.1 x hx2
      omega
    · exact h.2 x hx2 y hy2 he

theorem wmGet_mem {κ ν : Type} [DecidableEq κ] (m : List (κ × ν)) (k : κ) (v : ν)
    (h : wmGet m k = some v) : (k, v) ∈ m := by
  simp only [wmGet, Option.map_eq_some'] at h
  obtain ⟨pair, hfind, hv⟩ := h
  have hmem := List.mem_of_find?_eq_some hfind
  have hkey : pair.1 = k := by
    have := List.find?_some hfind
    simpa using this
  have : pair = (k, v) := by
    cases pair
    simp_all
  exact this ▸ hmem

theorem mem_stateGroups_of_multiples (st : CombineState) (l : Line) (g : LineGroup)
    (h : wmGet st.multiples l = some g) : g ∈ stateGroups st := by
  have := wmGet_mem st.multiples l g h
  exact List.mem_append_left _ (List.mem_map.mpr ⟨(l, g), this, rfl⟩)

theorem mem_stateGroups_of_memo (st : CombineState) (la : Nat × List Line)
    (d : CombinedData) (h : wmGet st.combinedMemo la = some d) (g : LineGroup)
    (hg : g ∈ entryGroups d.combined) : g ∈ stateGroups st := by
  have := wmGet_mem st.combinedMemo la d h
  exact List.mem_append_right _ (List.mem_flatMap.mpr ⟨(la, d), this, hg⟩)

/-- The closing step preserves heap consistency, also with respect to a list
of group objects already emitted into the output (`extra`). -/
theorem closeCollect_groupsOK (st : CombineState) (c0 : Line) (cs : List Line)
    (extra : List LineGroup) (h : GroupsOK (stateGroups st ++ extra) st.fresh) :
    GroupsOK (stateGroups (closeCollect st (c0 :: cs)).2 ++
        (extra ++ [(closeCollect st (c0 :: cs)).1]))
      (closeCollect st (c0 :: cs)).2.fresh ∧
    st.fresh ≤ (closeCollect st (c0 :: cs)).2.fresh ∧
    (∀ g ∈ stateGroups st, g ∈ stateGroups (closeCollect st (c0 :: cs)).2) ∧
    (closeCollect st (c0 :: cs)).2.combinedMemo = st.combinedMemo := by
  have halloc :
      ∀ (st2 : CombineState) (g2 : LineGroup),
        st2 = { st with multiples := (c0, g2) :: st.multiples, fresh := st.fresh + 1 } →
        g2 = ⟨st.fresh, c0 :: cs⟩ →
        GroupsOK (stateGroups st2 ++ (extra ++ [g2])) st2.fresh ∧
        st.fresh ≤ st2.fresh ∧
        (∀ g ∈ stateGroups st, g ∈ stateGroups st2) ∧
        st2.combinedMemo = st.combinedMemo := by
    intro st2 g2 hst2 hg2
    have hsg : stateGroups st2 = g2 :: stateGroups st := by
      rw [hst2]
      simp [stateGroups]
    refine ⟨?_, by rw [hst2]; exact Nat.le_succ _, ?_, by rw [hst2]⟩
    · have hok : GroupsOK (g2 :: (stateGroups st ++ extra)) (st.fresh + 1) :=
        GroupsOK_cons_fresh _ _ _ h (by rw [hg2])
      have hfr : st2.fresh = st.fresh + 1 := by rw [hst2]
      rw [hfr, hsg]
      refine GroupsOK_subset _ _ _ ?_ hok
      intro g hg
      rcases List.mem_append.mp hg with hg | hg
      · rcases List.mem_cons.mp hg with rfl | hg
        · exact List.mem_cons_self _ _
        · exact List.mem_cons_of_mem _ (List.mem_append_left _ hg)
      · rcases List.mem_append.mp hg with hg | hg
        · exact List.mem_cons_of_mem _ (List.mem_append_right _ hg)
        · rcases List.mem_singleton.mp hg with rfl
          exact List.mem_cons_self _ _
    · intro g hg
      rw [hsg]
      exact List.mem_cons_of_mem _ hg
  cases hw : wmGet st.multiples c0 with
  | some last =>
    by_cases hl : last.lines = c0 :: cs
    · have hcc : closeCollect st (c0 :: cs) = (last, st) := by
        simp [closeCollect, hw, hl]
      rw [hcc]
      refine ⟨?_, le_refl _, fun g hg => hg, rfl⟩
      refine GroupsOK_subset _ _ _ ?_ h
      intro g hg
      rcases List.mem_append.mp hg with hg | hg
      · exact List.mem_append_left _ hg
      · rcases List.mem_append.mp hg with hg | hg
        · exact List.mem_append_right _ hg
        · rcases List.mem_singleton.mp hg with rfl
          exact List.mem_append_left _ (mem_stateGroups_of_multiples st c0 g hw)
    · have hcc : closeCollect st (c0 :: cs) =
          (⟨st.fresh, c0 :: cs⟩,
           { st with multiples := (c0, ⟨st.fresh, c0 :: cs⟩) :: st.multiples, fresh := st.fresh + 1 }) := by
        simp [closeCollect, hw, hl]
      rw [hcc]
      exact halloc _ _ rfl rfl
  | none =>
    have hcc : closeCollect st (c0 :: cs) =
        (⟨st.fresh, c0 :: cs⟩,
         { st with multiples := (c0, ⟨st.fresh, c0 :: cs⟩) :: st.multiples, fresh := st.fresh + 1 }) := by
      simp [closeCollect, hw]
    rw [hcc]
    exact halloc _ _ rfl rfl

theorem wmGet_cons_ne {κ ν : Type} [DecidableEq κ] (m : List (κ × ν)) (k k2 : κ) (v : ν)
    (h : k2 ≠ k) : wmGet ((k, v) :: m) k2 = wmGet m k2 := by
  simp [wmGet, List.find?_cons, Ne.symm h]

/-- The grouping loop preserves heap consistency of group identities, and
its output groups are consistent with everything reachable before. -/
theorem combineLoop_groupsOK (ed : Editor) (lines : List Line) :
    ∀ (st : CombineState) (collect : List Line) (extra : List LineGroup),
      GroupsOK (stateGroups st ++ extra) st.fresh →
      GroupsOK (stateGroups (combineLoop ed st collect lines).2.2 ++
          (extra ++ entryGroups (combineLoop ed st collect lines).1))
        (combineLoop ed st collect lines).2.2.fresh ∧
      st.fresh ≤ (combineLoop ed st collect lines).2.2.fresh ∧
      (∀ g ∈ stateGroups st, g ∈ stateGroups (combineLoop ed st collect lines).2.2) ∧
      (combineLoop ed st collect lines).2.2.combinedMemo = st.combinedMemo := by
  induction lines with
  | nil =>
    intro st collect extra h
    simp only [combineLoop, entryGroups, List.filterMap_nil, List.append_nil]
    exact ⟨h, le_refl _, fun g hg => hg, by trivial⟩
  | cons line rest ih =>
    intro st collect extra h
    cases hsc : (getLineType ed line).shouldCombine with
    | some sc =>
      cases hcl : closesAfter ed (getLineTypeIdx ed line) sc (collect.headD line) rest with
      | true =>
        obtain ⟨c0, cs, hcc⟩ : ∃ c0 cs, collect ++ [line] = c0 :: cs := by
          cases collect with
          | nil => exact ⟨line, [], rfl⟩
          | cons x xs => exact ⟨x, xs ++ [line], rfl⟩
        have hout : combineLoop ed st collect (line :: rest) =
            (CEntry.group (closeCollect st (collect ++ [line])).1 ::
                (combineLoop ed (closeCollect st (collect ++ [line])).2 [] rest).1,
              ((collect.headD line).id,
                CEntry.group (closeCollect st (collect ++ [line])).1) ::
                (combineLoop ed (closeCollect st (collect ++ [line])).2 [] rest).2.1,
              (combineLoop ed (closeCollect st (collect ++ [line])).2 [] rest).2.2) := by
          simp only [combineLoop, hsc, hcl, if_true]
        have hclose := closeCollect_groupsOK st c0 cs extra h
        rw [← hcc] at hclose
        obtain ⟨hok1, hle1, hmono1, hmemo1⟩ := hclose
        obtain ⟨hok2, hle2, hmono2, hmemo2⟩ :=
          ih (closeCollect st (collect ++ [line])).2 []
            (extra ++ [(closeCollect st (collect ++ [line])).1]) hok1
        rw [hout]
        refine ⟨?_, le_trans hle1 hle2, fun g hg => hmono2 g (hmono1 g hg),
          hmemo2.trans hmemo1⟩
        refine GroupsOK_subset _ _ _ ?_ hok2
        intro x hx
        simp only [entryGroups, List.filterMap_cons, List.mem_append, List.mem_cons,
          List.mem_singleton] at hx ⊢
        tauto
      | false =>
        have hout : combineLoop ed st collect (line :: rest) =
            combineLoop ed st (collect ++ [line]) rest := by
          simp only [combineLoop, hsc, hcl, if_neg Bool.false_ne_true]
        rw [hout]
        exact ih st (collect ++ [line]) extra h
    | none =>
      cases hrend : (getLineType ed line).render with
      | some r =>
        have hout : combineLoop ed st collect (line :: rest) =
            (CEntry.line line :: (combineLoop ed st collect rest).1,
              (line.id, CEntry.line line) :: (combineLoop ed st collect rest).2.1,
              (combineLoop ed st collect rest).2.2) := by
          simp only [combineLoop, hsc, hrend, Option.isSome_some, if_true]
        obtain ⟨hok2, hle2, hmono2, hmemo2⟩ := ih st collect extra h
        rw [hout]
        refine ⟨?_, hle2, hmono2, hmemo2⟩
        refine GroupsOK_subset _ _ _ ?_ hok2
        intro x hx
        simp only [entryGroups, List.filterMap_cons, List.mem_append] at hx ⊢
        tauto
      | none =>
        have hout : combineLoop ed st collect (line :: rest) =
            combineLoop ed st collect rest := by
          simp only [combineLoop, hsc, hrend, Option.isSome_none,
            if_neg Bool.false_ne_true]
        rw [hout]
        exact ih st collect extra h

/-- `combineLines` preserves the cache-state invariant; its returned result
strips to the pure grouping of the input lines, and all its group objects
are reachable from (hence consistent in) the resulting state. -/
theorem combineLines_stateOK (ed : Editor) (st : CombineState) (laRef : Nat)
    (lines : List Line) (h : StateOK ed st) :
    StateOK ed (combineLines ed st laRef lines).2 ∧
    (combineLines ed st laRef lines).1.combined.map stripE = pureCombined ed lines ∧
    stripBK (combineLines ed st laRef lines).1.byKey = pureByKey ed lines ∧
    (∀ g ∈ entryGroups (combineLines ed st laRef lines).1.combined,
        g ∈ stateGroups (combineLines ed st laRef lines).2) ∧
    (∀ g ∈ stateGroups st, g ∈ stateGroups (combineLines ed st laRef lines).2) := by
  cases hw : wmGet st.combinedMemo (laRef, lines) with
  | some cache =>
    have hccl : combineLines ed st laRef lines = (cache, st) := by
      simp [combineLines, hw]
    rw [hccl]
    have hc := h.2 (laRef, lines) cache hw
    exact ⟨h, hc.1, hc.2,
      fun g hg => mem_stateGroups_of_memo st _ cache hw g hg, fun g hg => hg⟩
  | none =>
    have hccl : combineLines ed st laRef lines =
        (⟨(combineLoop ed st [] lines).2.2.fresh, (combineLoop ed st [] lines).1,
            (combineLoop ed st [] lines).2.1⟩,
         { (combineLoop ed st [] lines).2.2 with
            combinedMemo := (((laRef, lines)),
                (⟨(combineLoop ed st [] lines).2.2.fresh, (combineLoop ed st [] lines).1,
                  (combineLoop ed st [] lines).2.1⟩ : CombinedData)) ::
              (combineLoop ed st [] lines).2.2.combinedMemo,
            fresh := (combineLoop ed st [] lines).2.2.fresh + 1 }) := by
      simp [combineLines, hw]
    obtain ⟨hokL, hleL, hmonoL, hmemoL⟩ :=
      combineLoop_groupsOK ed lines st [] [] (by simpa using h.1)
    have hstr := combineLoop_strip ed lines st []
    rw [hccl]
    have hsgF : ∀ x, x ∈ stateGroups
        { (combineLoop ed st [] lines).2.2 with
          combinedMemo := (((laRef, lines)),
              (⟨(combineLoop ed st [] lines).2.2.fresh, (combineLoop ed st [] lines).1,
                (combineLoop ed st [] lines).2.1⟩ : CombinedData)) ::
            (combineLoop ed st [] lines).2.2.combinedMemo,
          fresh := (combineLoop ed st [] lines).2.2.fresh + 1 } ↔
        x ∈ stateGroups (combineLoop ed st [] lines).2.2 ++
          entryGroups (combineLoop ed st [] lines).1 := by
      intro x
      simp only [stateGroups, List.flatMap_cons, List.mem_append]
      constructor
      · rintro (hx | hx | hx)
        · exact Or.inl (Or.inl hx)
        · exact Or.inr hx
        · exact Or.inl (Or.inr hx)
      · rintro ((hx | hx) | hx)
        · exact Or.inl hx
        · exact Or.inr (Or.inr hx)
        · exact Or.inr (Or.inl hx)
    refine ⟨⟨?_, ?_⟩, hstr.1, hstr.2, ?_, ?_⟩
    · refine GroupsOK_mono_fresh _ _ _ (Nat.le_succ _) ?_
      refine GroupsOK_subset _ _ _ ?_ (by simpa using hokL)
      intro g hg
      exact (hsgF g).mp hg
    · intro la d hla
      by_cases hk : la = (laRef, lines)
      · subst hk
        rw [wmGet_cons_self] at hla
        cases hla
        exact ⟨hstr.1, hstr.2⟩
      · rw [wmGet_cons_ne _ _ _ _ hk] at hla
        rw [hmemoL] at hla
        exact h.2 la d hla
    · intro g hg
      exact (hsgF g).mpr (List.mem_append_right _ hg)
    · intro g hg
      exact (hsgF g).mpr (List.mem_append_left _ (hmonoL g hg))

/-! ## Claim C1, stage 3: `isSame` is strip equality on consistent heaps -/

/-- On entries whose groups all live in one ref-consistent heap, `isSame`
decides exactly equality of the identity-erased values: the reference
fast path of `isSame` adds nothing beyond pairwise member identity. -/
theorem isSame_iff_stripE (gs : List LineGroup)
    (hinj : ∀ g ∈ gs, ∀ g2 ∈ gs, g.ref = g2.ref → g = g2)
    (a b : CEntry) (ha : ∀ g, a = CEntry.group g → g ∈ gs)
    (hb : ∀ g, b = CEntry.group g → g ∈ gs) :
    (isSame a b = true ↔ stripE a = stripE b) := by
  cases a with
  | line x =>
    cases b with
    | line y => simp [isSame, stripE]
    | group g => simp [isSame, stripE]
  | group g =>
    cases b with
    | line y => simp [isSame, stripE]
    | group g2 =>
      simp only [isSame, stripE, Bool.or_eq_true, decide_eq_true_eq, PEntry.group.injEq]
      constructor
      · rintro (href | hlines)
        · exact congrArg LineGroup.lines (hinj g (ha g rfl) g2 (hb g2 rfl) href)
        · exact hlines
      · exact fun h => Or.inr h

/-! ## Claim C1, stage 4: `mapM` over `Except` as a pointwise relation -/

theorem mapM_except_ok_iff {α β : Type} (f : α → Except String β) :
    ∀ (l : List α) (r : List β),
      l.mapM f = Except.ok r ↔ List.Forall₂ (fun a b => f a = Except.ok b) l r := by
  intro l
  induction l with
  | nil =>
    intro r
    rw [List.mapM_nil]
    constructor
    · intro h
      cases h
      exact List.Forall₂.nil
    · intro h
      cases h
      rfl
  | cons x xs ih =>
    intro r
    rw [List.mapM_cons]
    cases hfx : f x with
    | error e =>
      constructor
      · intro h
        exact Except.noConfusion h
      · intro h
        cases h with
        | cons hx ht => rw [hfx] at hx; cases hx
    | ok b =>
      cases hxs : xs.mapM f with
      | error e =>
        constructor
        · intro h
          exact Except.noConfusion h
        · intro h
          cases h with
          | cons hx ht =>
            rw [(ih _).mpr ht] at hxs
            cases hxs
      | ok bs =>
        constructor
        · intro h
          have h2 : Except.ok (b :: bs) = Except.ok r := h
          cases h2
          exact List.Forall₂.cons hfx ((ih bs).mp hxs)
        · intro h
          cases h with
          | cons hx ht =>
            rw [hfx] at hx
            cases hx
            have h3 := (ih _).mpr ht
            rw [h3] at hxs
            cases hxs
            rfl

theorem forall₂_except_right_unique {α β : Type} (f : α → Except String β) :
    ∀ (l : List α) (r1 r2 : List β),
      List.Forall₂ (fun a b => f a = Except.ok b) l r1 →
      List.Forall₂ (fun a b => f a = Except.ok b) l r2 → r1 = r2 := by
  intro l
  induction l with
  | nil =>
    intro r1 r2 h1 h2
    cases h1
    cases h2
    rfl
  | cons x xs ih =>
    intro r1 r2 h1 h2
    cases h1 with
    | cons hx1 ht1 =>
      cases h2 with
      | cons hx2 ht2 =>
        rw [hx1] at hx2
        cases hx2
        rw [ih _ _ ht1 ht2]

theorem renderLine_strip (ed : Editor) (e : CEntry) :
    renderLine ed e = renderLineP ed (stripE e) := by
  cases e <;> rfl

theorem renderCombined_strip (ed : Editor) (es : List CEntry) :
    renderCombined ed es = renderCombinedP ed (es.map stripE) := by
  induction es with
  | nil => rfl
  | cons e rest ih =>
    simp only [renderCombined, renderCombinedP, List.map_cons, List.mapM_cons]
    simp only [renderCombined, renderCombinedP] at ih
    rw [renderLine_strip, ih]

/-! ## Claim C1, stage 5: distinctness of the grouped units -/

theorem flattenP_map_stripE (es : List CEntry) :
    flattenP (es.map stripE) = flattenE es := by
  induction es with
  | nil => rfl
  | cons e rest ih =>
    cases e with
    | line l =>
      simp only [List.map_cons, flattenP, flattenE, List.flatMap_cons, stripE] at *
      rw [ih]
    | group g =>
      simp only [List.map_cons, flattenP, flattenE, List.flatMap_cons, stripE] at *
      rw [ih]

theorem pureCombined_flatten (ed : Editor) (lines : List Line) :
    flattenP (pureCombined ed lines) = lines.filter (renderEligible ed) := by
  have h1 := flattenE_combineLoop ed emptyState [] lines (Or.inl rfl)
  have h2 := (combineLoop_strip ed lines emptyState []).1
  simp only [List.nil_append] at h1
  calc flattenP (pureCombined ed lines)
      = flattenP ((combineLoop ed emptyState [] lines).1.map stripE) := by
        rw [h2]; rfl
    _ = flattenE (combineLoop ed emptyState [] lines).1 := flattenP_map_stripE _
    _ = lines.filter (renderEligible ed) := h1

theorem pureLoop_groups_ne_nil (ed : Editor) (lines : List Line) :
    ∀ (collect : List Line) (ls : List Line),
      PEntry.group ls ∈ (pureLoop ed collect lines).1 → ls ≠ [] := by
  induction lines with
  | nil =>
    intro collect ls h
    simp [pureLoop] at h
  | cons line rest ih =>
    intro collect ls h
    cases hsc : (getLineType ed line).shouldCombine with
    | some sc =>
      cases hcl : closesAfter ed (getLineTypeIdx ed line) sc (collect.headD line) rest with
      | true =>
        simp only [pureLoop, hsc, hcl, if_true, List.mem_cons] at h
        rcases h with h | h
        · cases h
          simp
        · exact ih [] ls h
      | false =>
        simp only [pureLoop, hsc, hcl, if_neg Bool.false_ne_true] at h
        exact ih (collect ++ [line]) ls h
    | none =>
      cases hrend : (getLineType ed line).render with
      | some r =>
        simp only [pureLoop, hsc, hrend, Option.isSome_some, if_true,
          List.mem_cons] at h
        rcases h with h | h
        · cases h
        · exact ih collect ls h
      | none =>
        simp only [pureLoop, hsc, hrend, Option.isSome_none,
          if_neg Bool.false_ne_true] at h
        exact ih collect ls h

theorem mem_flattenP (es : List PEntry) (e : PEntry) (he : e ∈ es) (l : Line)
    (hl : l ∈ flattenP [e]) : l ∈ flattenP es := by
  induction es with
  | nil => cases he
  | cons e2 rest ih =>
    have hsplit : flattenP (e2 :: rest) = flattenP [e2] ++ flattenP rest := by
      cases e2 <;> simp [flattenP]
    rw [hsplit]
    rcases List.mem_cons.mp he with h | h
    · subst h
      exact List.mem_append_left _ hl
    · exact List.mem_append_right _ (ih h)

theorem nodup_of_nodup_flattenP (es : List PEntry)
    (hne : ∀ ls, PEntry.group ls ∈ es → ls ≠ [])
    (h : (flattenP es).Nodup) : es.Nodup := by
  induction es with
  | nil => exact List.nodup_nil
  | cons e rest ih =>
    have hsplit : flattenP (e :: rest) = flattenP [e] ++ flattenP rest := by
      cases e <;> simp [flattenP]
    rw [hsplit, List.nodup_append] at h
    obtain ⟨h1, hrest, hdisj⟩ := h
    refine List.nodup_cons.mpr ⟨?_, ih (fun ls hm => hne ls (List.mem_cons_of_mem _ hm)) hrest⟩
    intro hmem
    obtain ⟨l, hl⟩ : ∃ l, l ∈ flattenP [e] := by
      cases e with
      | line x => exact ⟨x, by simp [flattenP]⟩
      | group ls =>
        have hne2 := hne ls (List.mem_cons_self _ _)
        cases ls with
        | nil => exact absurd rfl hne2
        | cons l0 ls2 => exact ⟨l0, by simp [flattenP]⟩
    exact hdisj hl (mem_flattenP rest e hmem l hl)

/-! ## Claim C1, stage 6: what the two scans of `getChangedRanges` say -/

theorem firstDiff_none_same (a : List CEntry) :
    ∀ (b : List CEntry), firstDiff a b = none →
      ∀ (i : Nat) (x y : CEntry), a[i]? = some x → b[i]? = some y → isSame x y = true := by
  induction a with
  | nil =>
    intro b h i x y hx hy
    simp at hx
  | cons a0 as ih =>
    intro b h i x y hx hy
    cases b with
    | nil => simp at hy
    | cons b0 bs =>
      by_cases hs : isSame a0 b0 = true
      · rw [firstDiff, if_pos hs] at h
        have hin : firstDiff as bs = none := by
          cases hin : firstDiff as bs with
          | none => rfl
          | some k => rw [hin] at h; simp at h
        cases i with
        | zero =>
          simp only [List.getElem?_cons_zero, Option.some.injEq] at hx hy
          rw [← hx, ← hy]
          exact hs
        | succ n =>
          simp only [List.getElem?_cons_succ] at hx hy
          exact ih bs hin n x y hx hy
      · rw [firstDiff, if_neg hs] at h
        cases h

theorem firstDiff_some_char (a : List CEntry) :
    ∀ (b : List CEntry) (m : Nat), firstDiff a b = some m →
      (∃ x y, a[m]? = some x ∧ b[m]? = some y ∧ isSame x y = false) ∧
      (∀ i, i < m → ∀ (x y : CEntry), a[i]? = some x → b[i]? = some y →
        isSame x y = true) := by
  induction a with
  | nil =>
    intro b m h
    cases b <;> simp [firstDiff] at h
  | cons a0 as ih =>
    intro b m h
    cases b with
    | nil => simp [firstDiff] at h
    | cons b0 bs =>
      by_cases hs : isSame a0 b0 = true
      · rw [firstDiff, if_pos hs] at h
        obtain ⟨m2, hm2, rfl⟩ : ∃ m2, firstDiff as bs = some m2 ∧ m = m2 + 1 := by
          cases hin : firstDiff as bs with
          | none => rw [hin] at h; cases h
          | some k =>
            rw [hin] at h
            simp only [Option.map_some', Option.some.injEq] at h
            exact ⟨k, rfl, h.symm⟩
        obtain ⟨⟨x, y, hx, hy, hxy⟩, hpre⟩ := ih bs m2 hm2
        refine ⟨⟨x, y, by simpa using hx, by simpa using hy, hxy⟩, ?_⟩
        intro i hi x2 y2 hx2 hy2
        cases i with
        | zero =>
          simp only [List.getElem?_cons_zero, Option.some.injEq] at hx2 hy2
          rw [← hx2, ← hy2]
          exact hs
        | succ n =>
          simp only [List.getElem?_cons_succ] at hx2 hy2
          exact hpre n (by omega) x2 y2 hx2 hy2
      · rw [firstDiff, if_neg hs] at h
        have hm : m = 0 := by cases h; rfl
        subst hm
        refine ⟨⟨a0, b0, by simp, by simp, by simpa using hs⟩, ?_⟩
        intro i hi
        omega

theorem mem_of_getElem? {α : Type} {l : List α} {i : Nat} {x : α}
    (h : l[i]? = some x) : x ∈ l := by
  obtain ⟨hlt, he⟩ := List.getElem?_eq_some.mp h
  exact he ▸ List.getElem_mem hlt

/-! ## Claim C1, stage 7: the splice identity behind the slice patch -/

theorem jsSliceIdx_natCast (len n : Nat) : jsSliceIdx len (n : Int) = min n len := by
  simp [jsSliceIdx]

theorem jsSliceIdx_le (len : Nat) (i : Int) : jsSliceIdx len i ≤ len := by
  simp only [jsSliceIdx]
  split
  · omega
  · exact Nat.min_le_right _ _

theorem jsSliceIdx_zero (len : Nat) : jsSliceIdx len 0 = 0 := by
  simp [jsSliceIdx]

theorem jsSlice_eq_nil_iff {α : Type} (l : List α) (s e : Int) :
    jsSlice l s e = [] ↔ jsSliceIdx l.length e ≤ jsSliceIdx l.length s := by
  rw [jsSlice]
  constructor
  · intro h
    have hlen := congrArg List.length h
    simp only [List.length_drop, List.length_take, List.length_nil] at hlen
    have hle := jsSliceIdx_le l.length e
    omega
  · intro h
    apply List.length_eq_zero.mp
    simp only [List.length_drop, List.length_take]
    have hle := jsSliceIdx_le l.length e
    omega

/-- Splicing a window of `N` over the matching window of `S` reproduces `N`,
provided the outside parts agree pointwise (with the suffixes aligned at the
window ends). -/
theorem splice_pointwise (S N : List PEntry) (a B BN : Nat)
    (haB : a ≤ B) (haBN : a ≤ BN) (hB : B ≤ S.length) (hBN : BN ≤ N.length)
    (hpre : ∀ j, j < a → S[j]? = N[j]?)
    (hsuf : ∀ t, S[B + t]? = N[BN + t]?) :
    S.take a ++ (N.take BN).drop a ++ S.drop B = N := by
  have hlt : a ≤ S.length := le_trans haB hB
  have hl1 : (S.take a).length = a := by
    rw [List.length_take]
    omega
  have hl2 : ((N.take BN).drop a).length = BN - a := by
    simp only [List.length_drop, List.length_take]
    omega
  apply List.ext_getElem?
  intro j
  rw [List.append_assoc, List.getElem?_append, hl1]
  by_cases h1 : j < a
  · rw [if_pos h1, List.getElem?_take, if_pos h1]
    exact hpre j h1
  · rw [if_neg h1, List.getElem?_append, hl2]
    by_cases h2 : j - a < BN - a
    · rw [if_pos h2, List.getElem?_drop, List.getElem?_take]
      have hj : a + (j - a) < BN := by omega
      rw [if_pos hj]
      have : a + (j - a) = j := by omega
      rw [this]
    · rw [if_neg h2, List.getElem?_drop]
      have harith : j - a - (BN - a) = j - BN := by omega
      rw [harith]
      have hres := hsuf (j - BN)
      rw [show BN + (j - BN) = j by omega] at hres
      exact hres

/-- The no-expansion case (`oldRange = newRange`, hence equal lengths): the
window `[s, length - k)` splices correctly, and it is nonempty. -/
theorem splice_core_eq (S N : List PEntry) (k s : Nat)
    (hlen : S.length = N.length) (hkO : k < S.length)
    (hsuf : ∀ i, i < k → S[S.length - 1 - i]? = N[N.length - 1 - i]?)
    (hpre : ∀ i, i < s → S[i]? = N[i]?)
    (hsF : s = 0 ∨ (s < S.length ∧ s < N.length ∧ ¬(S[s]? = N[s]?))) :
    s < S.length - k ∧
    S.take s ++ (N.take (N.length - k)).drop s ++ S.drop (S.length - k) = N := by
  have hsufT : ∀ t, S[(S.length - k) + t]? = N[(N.length - k) + t]? := by
    intro t
    by_cases ht : S.length - k + t < S.length
    · have hi : S.length - 1 - (S.length - k + t) < k := by omega
      have := hsuf (S.length - 1 - (S.length - k + t)) hi
      rw [show S.length - 1 - (S.length - 1 - (S.length - k + t)) = S.length - k + t by
        omega] at this
      rw [show N.length - 1 - (S.length - 1 - (S.length - k + t)) = N.length - k + t by
        omega] at this
      exact this
    · rw [List.getElem?_eq_none (by omega), List.getElem?_eq_none (by omega)]
  have hslt : s < S.length - k := by
    rcases hsF with hs0 | ⟨hsO, hsN, hmisF⟩
    · omega
    · by_contra hge
      have := hsufT (s - (S.length - k))
      rw [show S.length - k + (s - (S.length - k)) = s by omega] at this
      rw [show N.length - k + (s - (S.length - k)) = s by omega] at this
      exact hmisF this
  refine ⟨hslt, splice_pointwise S N s (S.length - k) (N.length - k)
    (by omega) (by omega) (by omega) (by omega) hpre hsufT⟩

/-- The expansion case (`oldRange ≠ newRange`, hence different lengths):
the widened window `[s - 1, min length (length - k + 1))` splices correctly
and is nonempty on both sides. The `Nodup` hypotheses rule out a forward
mismatch inside the backward-matched region. -/
theorem splice_core_ne (S N : List PEntry) (k s : Nat)
    (hnO : S.Nodup) (hnN : N.Nodup) (hne : S.length ≠ N.length)
    (hkO : k < S.length) (hkN : k < N.length)
    (hsuf : ∀ i, i < k → S[S.length - 1 - i]? = N[N.length - 1 - i]?)
    (hpre : ∀ i, i < s → S[i]? = N[i]?)
    (hsF : s = 0 ∨ (s < S.length ∧ s < N.length ∧ ¬(S[s]? = N[s]?))) :
    s ≤ S.length - k ∧ s ≤ N.length - k ∧
    s - 1 < min S.length (S.length - k + 1) ∧
    s - 1 < min N.length (N.length - k + 1) ∧
    S.take (s - 1) ++ (N.take (min N.length (N.length - k + 1))).drop (s - 1) ++
      S.drop (min S.length (S.length - k + 1)) = N := by
  have hsufB : ∀ j, S.length - k ≤ j → j < S.length →
      S[j]? = N[j + N.length - S.length]? := by
    intro j hj1 hj2
    have hi : S.length - 1 - j < k := by omega
    have := hsuf (S.length - 1 - j) hi
    rw [show S.length - 1 - (S.length - 1 - j) = j by omega] at this
    rw [show N.length - 1 - (S.length - 1 - j) = j + N.length - S.length by omega] at this
    exact this
  have hsO : s ≤ S.length - k := by
    rcases hsF with hs0 | ⟨hsO2, hsN2, hmisF⟩
    · omega
    · by_contra hgt
      -- the position s - ... wait use p := S.length - k ≤ s - 1? use p := s with p > S.length - k
      -- overlap: p := S.length - k ≤ s - 1 gives a repeated entry in N
      have hp1 : S.length - k ≤ s - 1 := by omega
      have hp2 : s - 1 < S.length := by omega
      have hfwd := hpre (s - 1) (by omega)
      have hbwd := hsufB (s - 1) hp1 hp2
      have hNeq : N[s - 1]? = N[s - 1 + N.length - S.length]? := by
        rw [← hfwd, hbwd]
      have hd1 : s - 1 < N.length := by omega
      have hd2 : s - 1 + N.length - S.length < N.length := by omega
      have hdne : s - 1 ≠ s - 1 + N.length - S.length := by omega
      rw [List.getElem?_eq_getElem hd1, List.getElem?_eq_getElem hd2] at hNeq
      have := hnN.getElem_inj_iff.mp (Option.some.inj hNeq)
      exact hdne this
  have hsN : s ≤ N.length - k := by
    rcases hsF with hs0 | ⟨hsO2, hsN2, hmisF⟩
    · omega
    · by_contra hgt
      have hp1 : N.length - k ≤ s - 1 := by omega
      have hp2 : s - 1 < N.length := by omega
      have hfwd := hpre (s - 1) (by omega)
      have hi : N.length - 1 - (s - 1) < k := by omega
      have hbwd := hsuf (N.length - 1 - (s - 1)) hi
      rw [show N.length - 1 - (N.length - 1 - (s - 1)) = s - 1 by omega] at hbwd
      have hSeq : S[s - 1]? = S[S.length - 1 - (N.length - 1 - (s - 1))]? := by
        rw [hfwd, ← hbwd]
      have hd1 : s - 1 < S.length := by omega
      have hd2 : S.length - 1 - (N.length - 1 - (s - 1)) < S.length := by omega
      have hdne : s - 1 ≠ S.length - 1 - (N.length - 1 - (s - 1)) := by omega
      rw [List.getElem?_eq_getElem hd1, List.getElem?_eq_getElem hd2] at hSeq
      have := hnO.getElem_inj_iff.mp (Option.some.inj hSeq)
      exact hdne this
  have hsufT : ∀ t, S[min S.length (S.length - k + 1) + t]? =
      N[min N.length (N.length - k + 1) + t]? := by
    intro t
    by_cases ht : min S.length (S.length - k + 1) + t < S.length
    · have hj1 : S.length - k ≤ min S.length (S.length - k + 1) + t := by omega
      have := hsufB _ hj1 ht
      rw [show min S.length (S.length - k + 1) + t + N.length - S.length =
          min N.length (N.length - k + 1) + t by omega] at this
      exact this
    · rw [List.getElem?_eq_none (by omega), List.getElem?_eq_none (by omega)]
  refine ⟨hsO, hsN, by omega, by omega,
    splice_pointwise S N (s - 1) (min S.length (S.length - k + 1))
      (min N.length (N.length - k + 1)) (by omega) (by omega) (by omega) (by omega)
      (fun j hj => hpre j (by omega)) hsufT⟩

/-! ## Claim C1, stage 8: what `renderChanges` slices and splices -/

/-- The slice windows computed by `renderChanges` (diff, equality check,
expansion - without screen drift) either are both empty, or the splice of
the rendered new slice over the old slice reproduces the new units exactly,
at the level of identity-erased values. -/
theorem changedRanges_splice (oldC newC : List CEntry)
    (hiff : ∀ x ∈ oldC, ∀ y ∈ newC, (isSame x y = true ↔ stripE x = stripE y))
    (hnO : (oldC.map stripE).Nodup) (hnN : (newC.map stripE).Nodup)
    (q : Int × Int × Int × Int)
    (hq : q = if (getChangedRanges oldC newC).1 = (getChangedRanges oldC newC).2 then
        (((getChangedRanges oldC newC).1.1 : Int), ((getChangedRanges oldC newC).1.2 : Int),
         ((getChangedRanges oldC newC).2.1 : Int), ((getChangedRanges oldC newC).2.2 : Int))
      else
        (max 0 (((getChangedRanges oldC newC).1.1 : Int) - 1),
         min (oldC.length : Int) (((getChangedRanges oldC newC).1.2 : Int) + 1),
         max 0 (((getChangedRanges oldC newC).2.1 : Int) - 1),
         min (newC.length : Int) (((getChangedRanges oldC newC).2.2 : Int) + 1))) :
    (jsSliceIdx oldC.length q.2.1 ≤ jsSliceIdx oldC.length q.1 ∧
      jsSlice newC q.2.2.1 q.2.2.2 = []) ∨
    (jsSliceIdx oldC.length q.1 < jsSliceIdx oldC.length q.2.1 ∧
      (oldC.map stripE).take (jsSliceIdx oldC.length q.1) ++
          (jsSlice newC q.2.2.1 q.2.2.2).map stripE ++
          (oldC.map stripE).drop (jsSliceIdx oldC.length q.2.1) =
        newC.map stripE) := by
  have hlS : (oldC.map stripE).length = oldC.length := List.length_map _ _
  have hlN : (newC.map stripE).length = newC.length := List.length_map _ _
  have key : ∀ (i j : Nat) (x y : CEntry), oldC[i]? = some x → newC[j]? = some y →
      ((isSame x y = true) ↔ ((oldC.map stripE)[i]? = (newC.map stripE)[j]?)) := by
    intro i j x y hx hy
    rw [hiff x (mem_of_getElem? hx) y (mem_of_getElem? hy),
      List.getElem?_map, List.getElem?_map, hx, hy]
    simp
  have hfwd :
      (∀ i, i < (firstDiff oldC newC).getD 0 →
        (oldC.map stripE)[i]? = (newC.map stripE)[i]?) ∧
      ((firstDiff oldC newC).getD 0 = 0 ∨
        ((firstDiff oldC newC).getD 0 < oldC.length ∧
         (firstDiff oldC newC).getD 0 < newC.length ∧
         ¬((oldC.map stripE)[(firstDiff oldC newC).getD 0]? =
            (newC.map stripE)[(firstDiff oldC newC).getD 0]?))) := by
    cases hf : firstDiff oldC newC with
    | none =>
      simp only [Option.getD_none]
      exact ⟨fun i hi => absurd hi (by omega), Or.inl (by simp)⟩
    | some m =>
      simp only [Option.getD_some]
      obtain ⟨⟨x, y, hx, hy, hxy⟩, hpre⟩ := firstDiff_some_char _ _ _ hf
      constructor
      · intro i hi
        have hiO : i < oldC.length := by
          have := (List.getElem?_eq_some.mp hx).1
          omega
        have hiN : i < newC.length := by
          have := (List.getElem?_eq_some.mp hy).1
          omega
        obtain ⟨x2, hx2⟩ : ∃ x2, oldC[i]? = some x2 :=
          ⟨oldC[i], List.getElem?_eq_getElem hiO⟩
        obtain ⟨y2, hy2⟩ : ∃ y2, newC[i]? = some y2 :=
          ⟨newC[i], List.getElem?_eq_getElem hiN⟩
        exact (key i i x2 y2 hx2 hy2).mp (hpre i hi x2 y2 hx2 hy2)
      · right
        refine ⟨(List.getElem?_eq_some.mp hx).1, (List.getElem?_eq_some.mp hy).1, ?_⟩
        intro hcon
        have := (key m m x y hx hy).mpr hcon
        rw [this] at hxy
        cases hxy
  obtain ⟨hpreS, hsF⟩ := hfwd
  cases hb : firstDiff oldC.reverse newC.reverse with
  | none =>
    have hr : getChangedRanges oldC newC =
        (((firstDiff oldC newC).getD 0, 0), ((firstDiff oldC newC).getD 0, 0)) := by
      simp [getChangedRanges, hb]
    left
    subst hq
    rw [if_pos (by rw [hr]), hr]
    constructor
    · simp only [Nat.cast_zero, jsSliceIdx_zero, jsSliceIdx_natCast]
      omega
    · simp [jsSlice, jsSliceIdx_zero, jsSliceIdx_natCast]
  | some k =>
    obtain ⟨⟨x, y, hxk, hyk, hxyk⟩, hprek⟩ := firstDiff_some_char _ _ _ hb
    have hkO : k < oldC.length := by
      have := (List.getElem?_eq_some.mp hxk).1
      simpa using this
    have hkN : k < newC.length := by
      have := (List.getElem?_eq_some.mp hyk).1
      simpa using this
    have hsufS : ∀ i, i < k →
        (oldC.map stripE)[(oldC.map stripE).length - 1 - i]? =
          (newC.map stripE)[(newC.map stripE).length - 1 - i]? := by
      intro i hi
      rw [hlS, hlN]
      obtain ⟨x2, hx2⟩ : ∃ x2, oldC[oldC.length - 1 - i]? = some x2 :=
        ⟨_, List.getElem?_eq_getElem (by omega)⟩
      obtain ⟨y2, hy2⟩ : ∃ y2, newC[newC.length - 1 - i]? = some y2 :=
        ⟨_, List.getElem?_eq_getElem (by omega)⟩
      have hrx : oldC.reverse[i]? = some x2 := by
        rw [List.getElem?_reverse (by omega)]
        exact hx2
      have hry : newC.reverse[i]? = some y2 := by
        rw [List.getElem?_reverse (by omega)]
        exact hy2
      exact (key _ _ x2 y2 hx2 hy2).mp (hprek i hi x2 y2 hrx hry)
    have hr : getChangedRanges oldC newC =
        (((firstDiff oldC newC).getD 0, oldC.length - k),
         ((firstDiff oldC newC).getD 0, newC.length - k)) := by
      simp [getChangedRanges, hb]
    have hsF2 : (firstDiff oldC newC).getD 0 = 0 ∨
        ((firstDiff oldC newC).getD 0 < (oldC.map stripE).length ∧
         (firstDiff oldC newC).getD 0 < (newC.map stripE).length ∧
         ¬((oldC.map stripE)[(firstDiff oldC newC).getD 0]? =
            (newC.map stripE)[(firstDiff oldC newC).getD 0]?)) := by
      rw [hlS, hlN]
      exact hsF
    by_cases hlen : oldC.length = newC.length
    · have heq : (getChangedRanges oldC newC).1 = (getChangedRanges oldC newC).2 := by
        rw [hr, hlen]
      subst hq
      rw [if_pos heq, hr]
      obtain ⟨hslt, hsplice⟩ := splice_core_eq (oldC.map stripE) (newC.map stripE) k
        ((firstDiff oldC newC).getD 0) (by rw [hlS, hlN]; exact hlen)
        (by rw [hlS]; exact hkO) hsufS hpreS hsF2
      rw [hlS, hlN] at hsplice
      rw [hlS] at hslt
      right
      have hs_lo : (firstDiff oldC newC).getD 0 ≤ oldC.length := by omega
      have hs_ln : (firstDiff oldC newC).getD 0 ≤ newC.length := by omega
      constructor
      · simp only [jsSliceIdx_natCast]
        omega
      · have hslice : jsSlice newC ((firstDiff oldC newC).getD 0 : Int)
            ((newC.length - k : Nat) : Int) =
            (newC.take (newC.length - k)).drop ((firstDiff oldC newC).getD 0) := by
          rw [jsSlice, jsSliceIdx_natCast, jsSliceIdx_natCast,
            min_eq_left (by omega : newC.length - k ≤ newC.length),
            min_eq_left (by omega : (firstDiff oldC newC).getD 0 ≤ newC.length)]
        rw [hslice, List.map_drop, List.map_take]
        simp only [jsSliceIdx_natCast]
        rw [min_eq_left (by omega : (firstDiff oldC newC).getD 0 ≤ oldC.length),
          min_eq_left (by omega : oldC.length - k ≤ oldC.length)]
        exact hsplice
    · have hneq : ¬ ((getChangedRanges oldC newC).1 = (getChangedRanges oldC newC).2) := by
        rw [hr]
        intro hcon
        have h2 := congrArg Prod.snd hcon
        simp only at h2
        omega
      subst hq
      rw [if_neg hneq, hr]
      obtain ⟨hsO, hsN, hlt1, hlt2, hsplice⟩ := splice_core_ne (oldC.map stripE)
        (newC.map stripE) k ((firstDiff oldC newC).getD 0) hnO hnN
        (by rw [hlS, hlN]; exact hlen) (by rw [hlS]; exact hkO) (by rw [hlN]; exact hkN)
        hsufS hpreS hsF2
      rw [hlS, hlN] at hsplice
      rw [hlS] at hsO hlt1
      rw [hlN] at hsN hlt2
      right
      have hc1 : max 0 (((firstDiff oldC newC).getD 0 : Int) - 1) =
          (((firstDiff oldC newC).getD 0 - 1 : Nat) : Int) := by omega
      have hc2 : min (oldC.length : Int) (((oldC.length - k : Nat) : Int) + 1) =
          ((min oldC.length (oldC.length - k + 1) : Nat) : Int) := by omega
      have hc3 : min (newC.length : Int) (((newC.length - k : Nat) : Int) + 1) =
          ((min newC.length (newC.length - k + 1) : Nat) : Int) := by omega
      constructor
      · simp only [hc1, hc2, jsSliceIdx_natCast]
        omega
      · have hslice : jsSlice newC (max 0 (((firstDiff oldC newC).getD 0 : Int) - 1))
            (min (newC.length : Int) (((newC.length - k : Nat) : Int) + 1)) =
            (newC.take (min newC.length (newC.length - k + 1))).drop
              ((firstDiff oldC newC).getD 0 - 1) := by
          rw [hc1, hc3, jsSlice, jsSliceIdx_natCast, jsSliceIdx_natCast,
            min_eq_left (by omega : min newC.length (newC.length - k + 1) ≤ newC.length),
            min_eq_left (by omega : (firstDiff oldC newC).getD 0 - 1 ≤ newC.length)]
        rw [hslice, List.map_drop, List.map_take]
        simp only [hc1, hc2, jsSliceIdx_natCast]
        rw [min_eq_left (by omega : (firstDiff oldC newC).getD 0 - 1 ≤ oldC.length),
          min_eq_left (by omega : min oldC.length (oldC.length - k + 1) ≤ oldC.length)]
        exact hsplice

/-! ## Claim C1, stage 9: assembly -/

theorem recGet_stripBK (bk : List (String × CEntry)) (k : String) :
    recGet (stripBK bk) k = (recGet bk k).map stripE := by
  simp only [recGet, stripBK]
  rw [← List.map_reverse, List.find?_map, Option.map_map, Option.map_map]
  rfl

theorem pureCombined_nodup (ed : Editor) (lines : List Line) (h : lines.Nodup) :
    (pureCombined ed lines).Nodup := by
  apply nodup_of_nodup_flattenP
  · intro ls hm
    exact pureLoop_groups_ne_nil ed lines [] ls hm
  · rw [pureCombined_flatten]
    exact h.filter _

theorem rangeChild_congr (ed : Editor) (doc : TextDocument)
    (bk1 bk2 : List (String × CEntry)) (hbk : stripBK bk1 = stripBK bk2)
    (ic : Nat × VChild) :
    rangeChild ed doc bk1 ic = rangeChild ed doc bk2 ic := by
  cases hk : truthyKey ic.2 with
  | none => simp only [rangeChild, hk]
  | some k =>
    have hrec : (recGet bk1 k).map stripE = (recGet bk2 k).map stripE := by
      rw [← recGet_stripBK, ← recGet_stripBK, hbk]
    cases h1 : recGet bk1 k with
    | none =>
      cases h2 : recGet bk2 k with
      | none => simp only [rangeChild, hk, h1, h2]
      | some e2 =>
        rw [h1, h2] at hrec
        simp at hrec
    | some e1 =>
      cases h2 : recGet bk2 k with
      | none =>
        rw [h1, h2] at hrec
        simp at hrec
      | some e2 =>
        rw [h1, h2] at hrec
        have hstrip : stripE e1 = stripE e2 := by
          simpa using hrec
        cases e1 with
        | line l1 =>
          cases e2 with
          | line l2 =>
            have hl : l1 = l2 := by
              simpa [stripE] using hstrip
            subst hl
            simp only [rangeChild, hk, h1, h2]
          | group g2 => simp [stripE] at hstrip
        | group g1 =>
          cases e2 with
          | line l2 => simp [stripE] at hstrip
          | group g2 =>
            have hl : g1.lines = g2.lines := by
              simpa [stripE] using hstrip
            simp only [rangeChild, hk, h1, h2, hl]

theorem setLineNodesRangesM_congr (ed : Editor) (doc : TextDocument)
    (bk1 bk2 : List (String × CEntry)) (hbk : stripBK bk1 = stripBK bk2)
    (screen : List VChild) :
    setLineNodesRangesM ed doc bk1 screen = setLineNodesRangesM ed doc bk2 screen := by
  have hfun : rangeChild ed doc bk1 = rangeChild ed doc bk2 :=
    funext (rangeChild_congr ed doc bk1 bk2 hbk)
  simp only [setLineNodesRangesM, hfun]

theorem StateOK_empty (ed : Editor) : StateOK ed emptyState := by
  refine ⟨⟨?_, ?_⟩, ?_⟩
  · intro g hg
    simp [stateGroups, emptyState] at hg
  · intro g hg
    simp [stateGroups, emptyState] at hg
  · intro la d hla
    simp [wmGet, emptyState] at hla

theorem renderM_strip (ed : Editor) (st : CombineState) (doc : TextDocument)
    (nodes : List VChild) (hok : StateOK ed st)
    (hrn : renderCombinedP ed (pureCombined ed doc.lines) = Except.ok nodes) :
    ∃ bk, stripBK bk = pureByKey ed doc.lines ∧
      renderM ed st doc = Except.ok (nodes,
        setLineNodesRangesM ed doc bk nodes,
        (combineLines ed (combineLines ed st doc.linesRef doc.lines).2
            doc.linesRef doc.lines).2) := by
  obtain ⟨hok1, hstr1, hbk1, hg1, hm1⟩ :=
    combineLines_stateOK ed st doc.linesRef doc.lines hok
  obtain ⟨hok2, hstr2, hbk2, hg2, hm2⟩ :=
    combineLines_stateOK ed (combineLines ed st doc.linesRef doc.lines).2
      doc.linesRef doc.lines hok1
  have hrc : renderCombined ed (combineLines ed st doc.linesRef doc.lines).1.combined =
      Except.ok nodes := by
    rw [renderCombined_strip, hstr1]
    exact hrn
  refine ⟨(combineLines ed (combineLines ed st doc.linesRef doc.lines).2
      doc.linesRef doc.lines).1.byKey, hbk2, ?_⟩
  simp only [renderM]
  rw [hrc]
  rfl

theorem renderM_proj_eq (ed : Editor) (st1 st2 : CombineState) (doc : TextDocument)
    (nodes : List VChild) (hok1 : StateOK ed st1) (hok2 : StateOK ed st2)
    (hrn : renderCombinedP ed (pureCombined ed doc.lines) = Except.ok nodes) :
    (renderM ed st1 doc).map (fun r => (r.1, r.2.1)) =
      (renderM ed st2 doc).map (fun r => (r.1, r.2.1)) := by
  obtain ⟨bkA, hbkA, hA⟩ := renderM_strip ed st1 doc nodes hok1 hrn
  obtain ⟨bkB, hbkB, hB⟩ := renderM_strip ed st2 doc nodes hok2 hrn
  rw [hA, hB]
  simp only [Except.map]
  rw [setLineNodesRangesM_congr ed doc bkA bkB (by rw [hbkA, hbkB]) nodes]

/-- C1: incremental vs. full render equivalence. For any pair of document
snapshots, when the on-screen tree is a full render of the old snapshot
(`screen = oldNodes` with `renderCombined` succeeding on both snapshots'
unit sequences, over any consistent cache state), `renderChanges` produces
the same screen and the same position-range index as discarding the screen
and running the full `render` on the new snapshot — the incremental path
differs only in the cache state it leaves behind. -/
theorem renderChanges_index_eq_render (ed : Editor) (st : CombineState)
    (oldDoc newDoc : TextDocument) (screen oldNodes newNodes : List VChild)
    (hok : StateOK ed st)
    (hnO : oldDoc.lines.Nodup) (hnN : newDoc.lines.Nodup)
    (hrO : renderCombinedP ed (pureCombined ed oldDoc.lines) = Except.ok oldNodes)
    (hrN : renderCombinedP ed (pureCombined ed newDoc.lines) = Except.ok newNodes)
    (hscreen : screen = oldNodes) :
    (renderChangesM ed st oldDoc newDoc screen).map (fun r => (r.1, r.2.1)) =
      (renderM ed st newDoc).map (fun r => (r.1, r.2.1)) := by
  rw [hscreen]
  obtain ⟨hok1, hstrO, hbkO, hgO, hmO⟩ :=
    combineLines_stateOK ed st oldDoc.linesRef oldDoc.lines hok
  obtain ⟨hok2, hstrN, hbkN, hgN, hmN⟩ :=
    combineLines_stateOK ed (combineLines ed st oldDoc.linesRef oldDoc.lines).2
      newDoc.linesRef newDoc.lines hok1
  simp only [renderChangesM]
  generalize hc1 : combineLines ed st oldDoc.linesRef oldDoc.lines = c1
  rw [hc1] at hok1 hstrO hbkO hgO hmO hok2 hstrN hbkN hgN hmN
  generalize hc2 : combineLines ed c1.2 newDoc.linesRef newDoc.lines = c2
  rw [hc2] at hok2 hstrN hbkN hgN hmN
  have hiff : ∀ x ∈ c1.1.combined, ∀ y ∈ c2.1.combined,
      (isSame x y = true ↔ stripE x = stripE y) := by
    intro x hx y hy
    refine isSame_iff_stripE (stateGroups c2.2) hok2.1.2 x y ?_ ?_
    · intro g hgx
      exact hmN g (hgO g (List.mem_filterMap.mpr ⟨x, hx, by rw [hgx]⟩))
    · intro g hgy
      exact hgN g (List.mem_filterMap.mpr ⟨y, hy, by rw [hgy]⟩)
  have hnodO : (c1.1.combined.map stripE).Nodup := by
    rw [hstrO]
    exact pureCombined_nodup ed oldDoc.lines hnO
  have hnodN : (c2.1.combined.map stripE).Nodup := by
    rw [hstrN]
    exact pureCombined_nodup ed newDoc.lines hnN
  have hFO : List.Forall₂ (fun a b => renderLineP ed a = Except.ok b)
      (c1.1.combined.map stripE) oldNodes := by
    rw [hstrO]
    exact (mapM_except_ok_iff (renderLineP ed) (pureCombined ed oldDoc.lines) oldNodes).mp hrO
  have hFN : List.Forall₂ (fun a b => renderLineP ed a = Except.ok b)
      (c2.1.combined.map stripE) newNodes := by
    rw [hstrN]
    exact (mapM_except_ok_iff (renderLineP ed) (pureCombined ed newDoc.lines) newNodes).mp hrN
  have hlenO : oldNodes.length = c1.1.combined.length := by
    have h1 := hFO.length_eq
    simp only [List.length_map] at h1
    omega
  simp only [hlenO]
  rw [if_neg (show ¬ (c1.1.combined.length ≠ c1.1.combined.length) from
    fun hcon => hcon rfl)]
  generalize hq :
      (if (getChangedRanges c1.1.combined c2.1.combined).1 =
            (getChangedRanges c1.1.combined c2.1.combined).2 then
          (((getChangedRanges c1.1.combined c2.1.combined).1.1 : Int),
           ((getChangedRanges c1.1.combined c2.1.combined).1.2 : Int),
           ((getChangedRanges c1.1.combined c2.1.combined).2.1 : Int),
           ((getChangedRanges c1.1.combined c2.1.combined).2.2 : Int))
        else
          (max 0 (((getChangedRanges c1.1.combined c2.1.combined).1.1 : Int) - 1),
           min (c1.1.combined.length : Int)
             (((getChangedRanges c1.1.combined c2.1.combined).1.2 : Int) + 1),
           max 0 (((getChangedRanges c1.1.combined c2.1.combined).2.1 : Int) - 1),
           min (c2.1.combined.length : Int)
             (((getChangedRanges c1.1.combined c2.1.combined).2.2 : Int) + 1))) = q
  rcases changedRanges_splice c1.1.combined c2.1.combined hiff hnodO hnodN q hq.symm with
    ⟨hble, hnewnil⟩ | ⟨hlt, hsplice⟩
  · have holdnil : jsSlice oldNodes q.1 q.2.1 = [] := by
      rw [jsSlice_eq_nil_iff, hlenO]
      exact hble
    have hcond : (jsSlice oldNodes q.1 q.2.1).isEmpty = true ∧
        (jsSlice c2.1.combined q.2.2.1 q.2.2.2).isEmpty = true := by
      constructor
      · rw [holdnil]
        rfl
      · rw [hnewnil]
        rfl
    rw [if_pos hcond]
    exact renderM_proj_eq ed c2.2 st newDoc newNodes hok2 hok hrN
  · have hcondF : ¬ ((jsSlice oldNodes q.1 q.2.1).isEmpty = true ∧
        (jsSlice c2.1.combined q.2.2.1 q.2.2.2).isEmpty = true) := by
      rintro ⟨h1, -⟩
      have h2 := (jsSlice_eq_nil_iff oldNodes q.1 q.2.1).mp (List.isEmpty_iff.mp h1)
      rw [hlenO] at h2
      omega
    rw [if_neg hcondF]
    have hAlen : ((c1.1.combined.map stripE).take
        (jsSliceIdx c1.1.combined.length q.1)).length =
        jsSliceIdx c1.1.combined.length q.1 := by
      have := jsSliceIdx_le c1.1.combined.length q.1
      simp only [List.length_take, List.length_map]
      omega
    have hdropN : (c2.1.combined.map stripE).drop (jsSliceIdx c1.1.combined.length q.1) =
        (jsSlice c2.1.combined q.2.2.1 q.2.2.2).map stripE ++
          (c1.1.combined.map stripE).drop (jsSliceIdx c1.1.combined.length q.2.1) := by
      have h0 := List.drop_left
        ((c1.1.combined.map stripE).take (jsSliceIdx c1.1.combined.length q.1))
        ((jsSlice c2.1.combined q.2.2.1 q.2.2.2).map stripE ++
          (c1.1.combined.map stripE).drop (jsSliceIdx c1.1.combined.length q.2.1))
      rw [hAlen] at h0
      rw [← hsplice, List.append_assoc]
      exact h0
    have hmidEq : ((c2.1.combined.map stripE).drop
        (jsSliceIdx c1.1.combined.length q.1)).take
        ((jsSlice c2.1.combined q.2.2.1 q.2.2.2).map stripE).length =
        (jsSlice c2.1.combined q.2.2.1 q.2.2.2).map stripE := by
      rw [hdropN]
      exact List.take_left _ _
    have hFmid : List.Forall₂ (fun a b => renderLineP ed a = Except.ok b)
        ((jsSlice c2.1.combined q.2.2.1 q.2.2.2).map stripE)
        ((newNodes.drop (jsSliceIdx c1.1.combined.length q.1)).take
          ((jsSlice c2.1.combined q.2.2.1 q.2.2.2).map stripE).length) := by
      have h1 := List.forall₂_take
        ((jsSlice c2.1.combined q.2.2.1 q.2.2.2).map stripE).length
        (List.forall₂_drop (jsSliceIdx c1.1.combined.length q.1) hFN)
      rw [hmidEq] at h1
      exact h1
    have hmidok : renderCombined ed (jsSlice c2.1.combined q.2.2.1 q.2.2.2) =
        Except.ok ((newNodes.drop (jsSliceIdx c1.1.combined.length q.1)).take
          ((jsSlice c2.1.combined q.2.2.1 q.2.2.2).map stripE).length) := by
      rw [renderCombined_strip]
      exact (mapM_except_ok_iff (renderLineP ed) _ _).mpr hFmid
    rw [hmidok]
    simp only [Except.map]
    rw [max_eq_right (Nat.le_of_lt hlt)]
    have hFscreen2 : List.Forall₂ (fun a b => renderLineP ed a = Except.ok b)
        (c2.1.combined.map stripE)
        (oldNodes.take (jsSliceIdx c1.1.combined.length q.1) ++
          (newNodes.drop (jsSliceIdx c1.1.combined.length q.1)).take
            ((jsSlice c2.1.combined q.2.2.1 q.2.2.2).map stripE).length ++
          oldNodes.drop (jsSliceIdx c1.1.combined.length q.2.1)) := by
      rw [← hsplice]
      exact List.rel_append (List.rel_append
        (List.forall₂_take (jsSliceIdx c1.1.combined.length q.1) hFO) hFmid)
        (List.forall₂_drop (jsSliceIdx c1.1.combined.length q.2.1) hFO)
    have hscreen2 : oldNodes.take (jsSliceIdx c1.1.combined.length q.1) ++
        (newNodes.drop (jsSliceIdx c1.1.combined.length q.1)).take
          ((jsSlice c2.1.combined q.2.2.1 q.2.2.2).map stripE).length ++
        oldNodes.drop (jsSliceIdx c1.1.combined.length q.2.1) = newNodes :=
      forall₂_except_right_unique (renderLineP ed) (c2.1.combined.map stripE) _ _
        hFscreen2 hFN
    rw [hscreen2]
    obtain ⟨hok3, hstr3, hbk3, hg3, hm3⟩ :=
      combineLines_stateOK ed c2.2 newDoc.linesRef newDoc.lines hok2
    obtain ⟨bkB, hbkB, hB⟩ := renderM_strip ed st newDoc newNodes hok hrN
    rw [hB]
    simp only [Except.map]
    rw [setLineNodesRangesM_congr ed newDoc
      (combineLines ed c2.2 newDoc.linesRef newDoc.lines).1.byKey bkB
      (by rw [hbk3, hbkB]) newNodes]

/-- Witness for C1: starting from the screen produced by fully rendering
the one-paragraph document, `renderChanges` to the two-paragraph document
yields the same screen and position index as a full render of it. -/
theorem renderChanges_index_eq_render_witness :
    docW2.lines.Nodup ∧
    (renderChangesM edW emptyState docW1 docW2
        ((renderCombinedP edW (pureCombined edW docW1.lines)).toOption.getD [])).map
        (fun r => (r.1, r.2.1)) =
      (renderM edW emptyState docW2).map (fun r => (r.1, r.2.1)) :=
  ⟨by decide,
   renderChanges_index_eq_render edW emptyState docW1 docW2
     ((renderCombinedP edW (pureCombined edW docW1.lines)).toOption.getD [])
     ((renderCombinedP edW (pureCombined edW docW1.lines)).toOption.getD [])
     ((renderCombinedP edW (pureCombined edW docW2.lines)).toOption.getD [])
     (StateOK_empty edW) (by decide) (by decide) rfl rfl rfl⟩

end Typewriter
